import Mathlib

/-!
Verification development for the document-chunking engine in
`src/pipeline/core/chunking.py`.

The Python module is shallowly embedded: dictionaries become structures or
association lists, `None`-able dictionary entries become `Option` fields,
exceptions become `Except PyErr`, and the regular expressions used by the
pattern detector are interpreted by a small backtracking matcher whose
abstract syntax mirrors each source pattern literally.  Wall-clock values
(`datetime.now()`) are threaded through as an explicit `now : String`
parameter, since chunk ids and timestamps embed them.  Floating point
quantities (`sequence_num` offsets, pattern scores) are modelled with `Rat`;
no claim depends on rounding.  The `context` dictionary attached to a chunk
boundary is only ever constructed, copied and merged by the pipeline, never
inspected, so it is modelled symbolically by a constructor recording its
provenance.
-/

set_option autoImplicit false

namespace ChunkingSpec

/-! ### Python-style string primitives

Python `str.split()` (split on whitespace runs, dropping empties),
`str.strip()`, `str.lower()`/`str.upper()` (ASCII range; all inputs in this
development are ASCII), `' '.join`, and substring containment (`in`).
Characters are handled through their code points so that kernel evaluation
stays within accelerated `Nat` arithmetic.
-/

/-- Python whitespace characters (`str.split` / `str.strip` / regex `\s`). -/
def isPyWs (c : Char) : Bool :=
  let n := c.toNat
  n == 32 || n == 9 || n == 10 || n == 13 || n == 11 || n == 12

def isUpperC (c : Char) : Bool := 65 ≤ c.toNat && c.toNat ≤ 90
def isLowerC (c : Char) : Bool := 97 ≤ c.toNat && c.toNat ≤ 122
def isDigitC (c : Char) : Bool := 48 ≤ c.toNat && c.toNat ≤ 57
def isAlphaC (c : Char) : Bool := isUpperC c || isLowerC c
def isAlnumC (c : Char) : Bool := isAlphaC c || isDigitC c

/-- Regex `\w` (ASCII fragment). -/
def isWordC (c : Char) : Bool := isAlnumC c || c.toNat == 95

/-- Worker for `pySplit`: accumulates the current word in reverse. -/
def pySplitGo : List Char → List Char → List (List Char)
  | [], acc => if acc.isEmpty then [] else [acc.reverse]
  | c :: cs, acc =>
    if isPyWs c then
      if acc.isEmpty then pySplitGo cs [] else acc.reverse :: pySplitGo cs []
    else pySplitGo cs (c :: acc)

/-- Python `str.split()`: split on whitespace runs, dropping empty pieces. -/
def pySplit (s : String) : List String :=
  (pySplitGo s.toList []).map (fun w => String.mk w)

/-- Python `len(s.split())`: the word count used throughout the module. -/
def wordCountOf (s : String) : Nat := (pySplit s).length

/-- Python `' '.join(words)`. -/
def pyJoin : List String → String
  | [] => ""
  | [w] => w
  | w :: ws => w ++ " " ++ pyJoin ws

/-- Python `str.strip()` (strip whitespace at both ends). -/
def pyStrip (s : String) : String :=
  String.mk (((s.toList.dropWhile isPyWs).reverse.dropWhile isPyWs).reverse)

/-- Python `str.lower()` restricted to ASCII (all inputs here are ASCII). -/
def pyLower (s : String) : String :=
  String.mk (s.toList.map (fun c =>
    if isUpperC c then Char.ofNat (c.toNat + 32) else c))

/-- Python `str.upper()` restricted to ASCII. -/
def pyUpper (s : String) : String :=
  String.mk (s.toList.map (fun c =>
    if isLowerC c then Char.ofNat (c.toNat - 32) else c))

/-- Is `needle` a prefix of `hay`? -/
def isPrefixL : List Char → List Char → Bool
  | [], _ => true
  | _ :: _, [] => false
  | a :: as, b :: bs => a == b && isPrefixL as bs

/-- Python substring containment `needle in hay`. -/
def containsSub (hay needle : String) : Bool :=
  let n := needle.toList
  let rec go : List Char → Bool
    | [] => isPrefixL n []
    | c :: cs => isPrefixL n (c :: cs) || go cs
  go hay.toList

/-- Python `s[-1] in xs` for nonempty `s` (last character membership). -/
def lastCharIn (s : String) (xs : List Char) : Bool :=
  match s.toList.getLast? with
  | some c => xs.contains c
  | none => false

/-! ### A small backtracking regular-expression matcher

The pattern detector compiles a fixed set of regular expressions with
`re.compile`.  Each of those patterns is written below as a term of the
abstract syntax `RE`; the interpreter `execRE` returns, for a pattern and a
starting offset, the list of possible end offsets in the priority order of
the Python `re` engine (alternatives left to right, repetition greedy).
The head of that list is the end of the match `re` would produce.  All
starred subpatterns appearing in the source consume at least one character
per iteration, so a fuel bound of the remaining input length is exact.
Anchors `bol`/`eol` implement `^`/`$` under `re.MULTILINE`, which is how the
pattern registry compiles every anchored pattern.
-/

inductive RE where
  /-- Matches the empty string. -/
  | eps
  /-- Matches one character satisfying the predicate. -/
  | pred (p : Char → Bool)
  | seq (a b : RE)
  /-- Alternation; the left branch has priority, as in Python. -/
  | alt (a b : RE)
  /-- Greedy Kleene star. -/
  | star (a : RE)
  /-- Lookahead `(?=a)` (zero width). -/
  | look (a : RE)
  /-- Word boundary `\b` (zero width). -/
  | wb
  /-- Line start `^` under `re.MULTILINE`. -/
  | bol
  /-- Line end `$` under `re.MULTILINE`. -/
  | eol

/-- Is the character at offset `p` (if any) a word character? -/
def wordAt (s : List Char) (p : Nat) : Bool :=
  match s.get? p with
  | some c => isWordC c
  | none => false

/-- Word boundary test at offset `p`. -/
def isWb (s : List Char) (p : Nat) : Bool :=
  (wordAt s p) != (if p == 0 then false else wordAt s (p - 1))

/-- Iterate a greedy star whose body results are produced by `f`;
only strictly advancing iterations are taken (every starred body in the
source consumes at least one character). -/
def starIter (f : Nat → List Nat) : Nat → Nat → List Nat
  | 0, p => [p]
  | fuel + 1, p =>
    (((f p).filter (fun e => p < e)).flatMap (starIter f fuel)) ++ [p]

/-- End offsets, in priority order, of matches of `re` at offset `p` in `s`. -/
def execRE (s : List Char) : RE → Nat → List Nat
  | .eps, p => [p]
  | .pred f, p =>
    match s.get? p with
    | some c => if f c then [p + 1] else []
    | none => []
  | .seq a b, p => (execRE s a p).flatMap (execRE s b)
  | .alt a b, p => execRE s a p ++ execRE s b p
  | .star a, p => starIter (execRE s a) (s.length + 1 - p) p
  | .look a, p => if (execRE s a p).isEmpty then [] else [p]
  | .wb, p => if isWb s p then [p] else []
  | .bol, p =>
    if p == 0 then [p]
    else match s.get? (p - 1) with
      | some c => if c == '\n' then [p] else []
      | none => []
  | .eol, p =>
    match s.get? p with
    | some c => if c == '\n' then [p] else []
    | none => if p == s.length then [p] else []

/-- Combinators used to transcribe the source patterns. -/
def reCh (c : Char) : RE := .pred (fun d => d == c)

def reFail : RE := .pred (fun _ => false)

/-- A literal string. -/
def reStr (t : String) : RE :=
  (t.toList.map reCh).foldr RE.seq .eps

/-- Left-to-right alternation of a list (empty list never matches). -/
def reAlts : List RE → RE
  | [] => reFail
  | [a] => a
  | a :: rest => .alt a (reAlts rest)

def reSeqs : List RE → RE
  | [] => .eps
  | [a] => a
  | a :: rest => .seq a (reSeqs rest)

/-- Greedy `a?`. -/
def reOpt (a : RE) : RE := .alt a .eps

/-- `a+`. -/
def rePlus (a : RE) : RE := .seq a (.star a)

/-- Exactly `n` copies. -/
def reExact (a : RE) : Nat → RE
  | 0 => .eps
  | n + 1 => .seq a (reExact a n)

/-- Greedily at most `n` copies (`a{0,n}`). -/
def reAtMost (a : RE) : Nat → RE
  | 0 => .eps
  | n + 1 => .alt (.seq a (reAtMost a n)) .eps

/-- Greedy `a{m,n}`. -/
def reRep (a : RE) (m n : Nat) : RE := .seq (reExact a m) (reAtMost a (n - m))

/-- Greedy `a{m,}`. -/
def reAtLeast (a : RE) (m : Nat) : RE := .seq (reExact a m) (.star a)

/-- Regex `.` without `DOTALL`: any character except a newline. -/
def reDot : RE := .pred (fun c => c != '\n')

def reWs : RE := .pred isPyWs
def reDigit : RE := .pred isDigitC
def reUpper : RE := .pred isUpperC
def reLower : RE := .pred isLowerC

/-- A character from an explicit set. -/
def reSet (cs : List Char) : RE := .pred (fun c => cs.contains c)

/-- A character outside an explicit set. -/
def reNotSet (cs : List Char) : RE := .pred (fun c => !cs.contains c)

/-! `re.findall` / `re.search` over the interpreter.  Scanning starts at
offset 0 and, as in Python, retries at every offset up to and including the
input length; an empty match advances the scan position by one. -/

/-- One scan step: the chosen match end at `p`, if any. -/
def matchEndAt (s : List Char) (re : RE) (p : Nat) : Option Nat :=
  (execRE s re p).head?

/-- Worker for scanning: returns the list of `(start, end)` spans of the
non-overlapping matches, left to right. -/
def scanGo (s : List Char) (re : RE) : Nat → Nat → List (Nat × Nat)
  | 0, _ => []
  | fuel + 1, p =>
    if p > s.length then []
    else
      match matchEndAt s re p with
      | some e =>
        if p < e then (p, e) :: scanGo s re fuel e
        else (p, e) :: scanGo s re fuel (p + 1)
      | none => scanGo s re fuel (p + 1)

/-- All match spans of `re` in `s` (the spans `re.findall` iterates over). -/
def scanSpans (re : RE) (s : String) : List (Nat × Nat) :=
  scanGo s.toList re (s.toList.length + 1) 0

/-- Number of matches (`len(pattern.findall(text))`). -/
def matchCount (re : RE) (s : String) : Nat := (scanSpans re s).length

/-- The substring of `s` between offsets `a` and `b`. -/
def sliceStr (s : String) (a b : Nat) : String :=
  String.mk ((s.toList.drop a).take (b - a))

/-- `re.findall` for a pattern whose single capture group spans the whole
match (all zero-width assertions excluded): the matched substrings. -/
def findAllText (re : RE) (s : String) : List String :=
  (scanSpans re s).map (fun pr => sliceStr s pr.1 pr.2)

/-- For a pattern of shape `pre (body) post` with a single capture group
`body`, the `(group start, group end, match end)` triple of the match chosen
at offset `p`, if any. -/
def groupMatchAt (s : List Char) (pre body post : RE) (p : Nat) :
    Option (Nat × Nat × Nat) :=
  ((execRE s pre p).flatMap (fun g1 =>
    (execRE s body g1).flatMap (fun g2 =>
      (execRE s post g2).map (fun e => (g1, g2, e))))).head?

/-- Scan worker for group captures. -/
def scanGrpGo (s : List Char) (pre body post : RE) :
    Nat → Nat → List (Nat × Nat)
  | 0, _ => []
  | fuel + 1, p =>
    if p > s.length then []
    else
      match groupMatchAt s pre body post p with
      | some (g1, g2, e) =>
        if p < e then (g1, g2) :: scanGrpGo s pre body post fuel e
        else (g1, g2) :: scanGrpGo s pre body post fuel (p + 1)
      | none => scanGrpGo s pre body post fuel (p + 1)

/-- `re.findall` for a single-group pattern `pre (body) post`: the list of
captured group substrings. -/
def findAllGroup (pre body post : RE) (s : String) : List String :=
  (scanGrpGo s.toList pre body post (s.toList.length + 1) 0).map
    (fun pr => sliceStr s pr.1 pr.2)

/-- `pattern.search(text) is not None`. -/
def reSearch (re : RE) (s : String) : Bool :=
  (List.range (s.toList.length + 1)).any
    (fun p => !(execRE s.toList re p).isEmpty)

/-! ### The patterns of the source module, transcribed literally

Each definition carries the Python pattern it transcribes.  The registry
patterns are compiled with `re.MULTILINE` (see
`PatternRegistry.register_pattern`), hence `bol`/`eol`.
-/

/-- Roman numeral characters `[IVXLCDM]`. -/
def reRoman : RE := reSet ['I', 'V', 'X', 'L', 'C', 'D', 'M']

/-- Registry `chapter_header` (weight 2.0), also the first pattern of
`detect_chapter_boundary`:
`^(?:Chapter|CHAPTER)\s+(?:[0-9]+|[IVXLCDM]+)(?:\s*[-:]\s*.+)?$`. -/
def chapterHeaderRE : RE :=
  reSeqs [.bol, .alt (reStr "Chapter") (reStr "CHAPTER"), rePlus reWs,
    .alt (rePlus reDigit) (rePlus reRoman),
    reOpt (reSeqs [.star reWs, reSet ['-', ':'], .star reWs, rePlus reDot]),
    .eol]

/-- Registry `section_header` (1.5): `^\d+(?:\.\d+)*\s+[A-Z][^\n]+$`. -/
def sectionHeaderRE : RE :=
  reSeqs [.bol, rePlus reDigit, .star (reSeqs [reCh '.', rePlus reDigit]),
    rePlus reWs, reUpper, rePlus (reNotSet ['\n']), .eol]

/-- Registry `paragraph_break` (0.5): `\n\s*\n`. -/
def paragraphBreakRE : RE := reSeqs [reCh '\n', .star reWs, reCh '\n']

/-- Registry `footnote` (1.0):
`^\[\d+\]|\x7b\d+\x7d|\*\x7b1,3\x7d|(?:\d+\s)?^[a-zA-Z]+\d+`
(an alternation of four branches; the third is one to three asterisks). -/
def footnoteRE : RE :=
  reAlts
    [reSeqs [.bol, reCh '[', rePlus reDigit, reCh ']'],
     reSeqs [reCh '{', rePlus reDigit, reCh '}'],
     reRep (reCh '*') 1 3,
     reSeqs [reOpt (reSeqs [rePlus reDigit, reWs]), .bol,
       rePlus (.pred isAlphaC), rePlus reDigit]]

/-- Registry `page_number` (0.3): `^\s*\d+\\s*$` — note the doubled
backslash in the source, which makes the pattern require a literal
backslash followed by a run of the letter s. -/
def pageNumberRE : RE :=
  reSeqs [.bol, .star reWs, rePlus reDigit, reCh '\\', .star (reCh 's'), .eol]

/-- Registry `table_of_contents` (2.0):
`(?:^|\n)(?:Table of Contents|CONTENTS)(?:\n|$)`. -/
def tableOfContentsRE : RE :=
  reSeqs [.alt .bol (reCh '\n'),
    .alt (reStr "Table of Contents") (reStr "CONTENTS"),
    .alt (reCh '\n') .eol]

/-- Registry `bibliography` (2.0):
`(?:^|\n)(?:Bibliography|References|Works Cited)(?:\n|$)`. -/
def bibliographyRE : RE :=
  reSeqs [.alt .bol (reCh '\n'),
    reAlts [reStr "Bibliography", reStr "References", reStr "Works Cited"],
    .alt (reCh '\n') .eol]

/-- Registry `appendix` (2.0):
`(?:^|\n)(?:Appendix\s+[A-Z]|APPENDIX\s+[A-Z])(?:\n|$)`. -/
def appendixRE : RE :=
  reSeqs [.alt .bol (reCh '\n'),
    .alt (reSeqs [reStr "Appendix", rePlus reWs, reUpper])
      (reSeqs [reStr "APPENDIX", rePlus reWs, reUpper]),
    .alt (reCh '\n') .eol]

/-- The default pattern registry, in registration order, with weights.
Weights `2.0, 1.5, 1.0, 0.5, 0.3` are represented exactly in `Rat`. -/
def defaultPatterns : List (String × RE × Rat) :=
  [("chapter_header", chapterHeaderRE, 2),
   ("section_header", sectionHeaderRE, 3 / 2),
   ("paragraph_break", paragraphBreakRE, 1 / 2),
   ("footnote", footnoteRE, 1),
   ("page_number", pageNumberRE, 3 / 10),
   ("table_of_contents", tableOfContentsRE, 2),
   ("bibliography", bibliographyRE, 2),
   ("appendix", appendixRE, 2)]

/-- Second pattern of `detect_chapter_boundary`:
`^(?:(?:\d+\.)|[A-Z]+\.)\s+[A-Z][^\n]+$` (compiled with `re.MULTILINE`). -/
def sectionHeurRE : RE :=
  reSeqs [.bol,
    .alt (reSeqs [rePlus reDigit, reCh '.'])
      (reSeqs [rePlus reUpper, reCh '.']),
    rePlus reWs, reUpper, rePlus (reNotSet ['\n']), .eol]

/-- Third check of `detect_chapter_boundary`:
`\b(?:Introduction|Background|Methodology|Results|Discussion|Conclusion)\b`. -/
def headingPhraseRE : RE :=
  reSeqs [.wb,
    reAlts [reStr "Introduction", reStr "Background", reStr "Methodology",
      reStr "Results", reStr "Discussion", reStr "Conclusion"],
    .wb]

/-- Entity pattern `person`: `\b([A-Z][a-z]+(?:\s+[A-Z][a-z]+){1,2})\b`. -/
def personRE : RE :=
  reSeqs [.wb, reUpper, rePlus reLower,
    reRep (reSeqs [rePlus reWs, reUpper, rePlus reLower]) 1 2, .wb]

/-- Entity pattern `organization`:
`\b([A-Z][a-z]+(?:\s+[A-Z][a-z]+)*(?:\s+(?:Inc\.|LLC|Corp\.|Ltd\.|Company|Association|Institute|University)))\b`. -/
def organizationRE : RE :=
  reSeqs [.wb, reUpper, rePlus reLower,
    .star (reSeqs [rePlus reWs, reUpper, rePlus reLower]),
    reSeqs [rePlus reWs,
      reAlts [reStr "Inc.", reStr "LLC", reStr "Corp.", reStr "Ltd.",
        reStr "Company", reStr "Association", reStr "Institute",
        reStr "University"]],
    .wb]

/-- Entity pattern `location`:
`\b([A-Z][a-z]+(?:,\s+(?:[A-Z][a-z]+|[A-Z]\x7b2\x7d)){1,2})\b`. -/
def locationRE : RE :=
  reSeqs [.wb, reUpper, rePlus reLower,
    reRep (reSeqs [reCh ',', rePlus reWs,
      .alt (reSeqs [reUpper, rePlus reLower]) (reExact reUpper 2)]) 1 2,
    .wb]

/-- Entity pattern `date` (three alternatives: numeric with `-`/`/`
separators, ISO, or month name followed by day and optional year). -/
def dateRE : RE :=
  reSeqs [.wb,
    reAlts
      [reSeqs [reRep reDigit 1 2, reSet ['-', '/'], reRep reDigit 1 2,
        reSet ['-', '/'], reRep reDigit 2 4],
       reSeqs [reExact reDigit 4, reCh '-', reExact reDigit 2, reCh '-',
        reExact reDigit 2],
       reSeqs [reAlts [reStr "Jan", reStr "Feb", reStr "Mar", reStr "Apr",
          reStr "May", reStr "Jun", reStr "Jul", reStr "Aug", reStr "Sep",
          reStr "Oct", reStr "Nov", reStr "Dec"],
        .star reLower, reCh ' ', reRep reDigit 1 2,
        reOpt (reAlts [reStr "st", reStr "nd", reStr "rd", reStr "th"]),
        reOpt (reSeqs [reOpt (reCh ','), reCh ' ', reExact reDigit 4])]],
    .wb]

/-- Entity pattern `email`:
`\b([a-zA-Z0-9_.+-]+@[a-zA-Z0-9-]+\.[a-zA-Z0-9-.]+)\b`. -/
def emailRE : RE :=
  reSeqs [.wb,
    rePlus (.pred (fun c => isAlnumC c || c == '_' || c == '.' || c == '+'
      || c == '-')),
    reCh '@', rePlus (.pred (fun c => isAlnumC c || c == '-')), reCh '.',
    rePlus (.pred (fun c => isAlnumC c || c == '-' || c == '.')), .wb]

/-- Entity pattern `url`:
`\b((?:https?://)?(?:www\.)?[a-zA-Z0-9-]+\.[a-zA-Z]\x7b2,\x7d(?:/[^\s]*)?)\b`. -/
def urlRE : RE :=
  reSeqs [.wb,
    reOpt (reSeqs [reStr "http", reOpt (reCh 's'), reStr "://"]),
    reOpt (reStr "www."),
    rePlus (.pred (fun c => isAlnumC c || c == '-')), reCh '.',
    reAtLeast (.pred isAlphaC) 2,
    reOpt (reSeqs [reCh '/', .star (.pred (fun c => !isPyWs c))]), .wb]

/-- Entity pattern `isbn` (optional `ISBN` prefix, a length lookahead, and
digit groups with optional separators; the pattern has no capture group). -/
def isbnRE : RE :=
  reSeqs
    [reOpt (reSeqs [reStr "ISBN",
      reOpt (reSeqs [reCh '-', reCh '1', reSet ['0', '3']]),
      reOpt (reCh ':'), .star reWs]),
     .look (reAlts
       [reExact (.pred (fun c => c == '-' || isDigitC c || c == ' ')) 17,
        reExact (.pred (fun c => c == '-' || isDigitC c || c == 'X'
          || c == ' ')) 13,
        reExact (.pred (fun c => isDigitC c || c == 'X')) 10]),
     reOpt (reSeqs [reStr "97", reSet ['8', '9'],
       reOpt (.pred (fun c => c == '-' || isPyWs c))]),
     reRep reDigit 1 5, reOpt (.pred (fun c => c == '-' || isPyWs c)),
     rePlus reDigit, reOpt (.pred (fun c => c == '-' || isPyWs c)),
     rePlus reDigit, reOpt (.pred (fun c => c == '-' || isPyWs c)),
     .pred (fun c => isDigitC c || c == 'X'), .wb]

/-- Entity pattern `phone`:
`\b(?:\+\d{1,2}\s?)?(?:\(\d{3}\)|\d{3})[-.\s]?\d{3}[-.\s]?\d{4}\b`
(no capture group). -/
def phoneRE : RE :=
  reSeqs [.wb,
    reOpt (reSeqs [reCh '+', reRep reDigit 1 2, reOpt reWs]),
    .alt (reSeqs [reCh '(', reExact reDigit 3, reCh ')'])
      (reExact reDigit 3),
    reOpt (.pred (fun c => c == '-' || c == '.' || isPyWs c)),
    reExact reDigit 3,
    reOpt (.pred (fun c => c == '-' || c == '.' || isPyWs c)),
    reExact reDigit 4, .wb]

/-- Domain-term pattern used at the end of `extract_entities`:
`\b([A-Z][a-z]+(?:\s+[a-z]+){0,3})\b`. -/
def termsRE : RE :=
  reSeqs [.wb, reUpper, rePlus reLower,
    reAtMost (reSeqs [rePlus reWs, rePlus reLower]) 3, .wb]

/-- Key-term pattern of `_extract_key_terms` (unused by the claims but part
of the detector): `\b([A-Z][a-z]+(?:\s+[a-z]+){0,2})\b`. -/
def keyTermsRE : RE :=
  reSeqs [.wb, reUpper, rePlus reLower,
    reAtMost (reSeqs [rePlus reWs, rePlus reLower]) 2, .wb]

/-- A dotted number `\d+(?:\.\d+)*` (the capture group of the reference
patterns). -/
def numDottedRE : RE :=
  reSeqs [rePlus reDigit, .star (reSeqs [reCh '.', rePlus reDigit])]

/-- Reference patterns of the detector, as `(name, pre, body, post)` with
the capture group `body`; for example `figure` is
`\b(?:Figure|Fig\.)\s+(\d+(?:\.\d+)*)\b`. -/
def referencePatterns : List (String × RE × RE × RE) :=
  [("figure",
    reSeqs [.wb, .alt (reStr "Figure") (reStr "Fig."), rePlus reWs],
    numDottedRE, .wb),
   ("table",
    reSeqs [.wb, .alt (reStr "Table") (reStr "Tab."), rePlus reWs],
    numDottedRE, .wb),
   ("equation",
    reSeqs [.wb, .alt (reStr "Equation") (reStr "Eq."), rePlus reWs],
    numDottedRE, .wb),
   ("section",
    reSeqs [.wb, .alt (reStr "Section") (reStr "Sect."), rePlus reWs],
    numDottedRE, .wb),
   ("chapter",
    reSeqs [.wb, .alt (reStr "Chapter") (reStr "Ch."), rePlus reWs],
    .alt (rePlus reDigit) (rePlus reRoman), .wb),
   ("page",
    reSeqs [.wb, .alt (reStr "p.") (reStr "page"), rePlus reWs],
    reSeqs [rePlus reDigit,
      reOpt (reSeqs [.star reWs, reCh '-', .star reWs, rePlus reDigit])],
    .wb),
   ("citation",
    reCh '[',
    reSeqs [rePlus reDigit, reOpt (reSeqs [reCh '-', rePlus reDigit]),
      .star (reSeqs [reCh ',', .star reWs, rePlus reDigit,
        reOpt (reSeqs [reCh '-', rePlus reDigit])])],
    reCh ']')]

/-- `ChunkManager._find_figure_references` pattern
`(?:Figure|Fig\.?)\s+(\d+(?:\.\d+)*)` as `(pre, body, post)`. -/
def mgrFigurePre : RE :=
  reSeqs [.alt (reStr "Figure") (reSeqs [reStr "Fig", reOpt (reCh '.')]),
    rePlus reWs]

/-- `ChunkManager._find_table_references` pattern `Table\s+(\d+(?:\.\d+)*)`. -/
def mgrTablePre : RE := reSeqs [reStr "Table", rePlus reWs]

/-- `ChunkManager._find_section_references` pattern
`Section\s+(\d+(?:\.\d+)*)`. -/
def mgrSectionPre : RE := reSeqs [reStr "Section", rePlus reWs]

/-! ### Data model

Content elements are Python dictionaries accessed with `.get(key, default)`;
they are modelled as a structure of `Option` fields covering every key the
module reads.  Reference buckets are Python dictionaries mapping bucket
names to lists whose members are usually dictionaries but — for chunks
produced by `TOCBasedChunkStrategy._extract_references` — plain strings, so
a bucket member is the dynamic `RefVal`.  Exceptions are the constructors
of `PyErr` (messages elided).
-/

/-- Exceptions raised (or, for `configurationError`, merely named by the
specification) by the module. -/
inductive PyErr where
  | valueError
  | keyError
  | attributeError
  | indexError
  | zeroDivisionError
  | chunkingError
  /-- Listed in the specification error taxonomy; never raised by the
  chunking module, which has no such class. -/
  | configurationError
deriving DecidableEq, Repr

/-- The `metadata` dictionary attached to content elements by
`ChunkManager._prepare_document`. -/
structure EMeta where
  isChapterBoundary : Option Bool := none
  entities : Option (List (String × List String)) := none
deriving DecidableEq, Repr

/-- A content element: one entry of `document.content`.  Absent dictionary
keys are `none`. -/
structure Element where
  typ : String
  text : Option String := none
  position : Option Int := none
  level : Option Int := none
  id : Option String := none
  target : Option String := none
  referenceType : Option String := none
  meta : Option EMeta := none
deriving DecidableEq, Repr

/-- A reference entry dictionary (as built by the strategies, by
`_update_chunk_references`, and by `merge`/`split`). -/
structure RefDict where
  id : Option String := none
  target : Option String := none
  typ : Option String := none
  position : Option Int := none
  text : Option String := none
  resolvesToChunk : Option Nat := none
  fromChunk : Option Nat := none
deriving DecidableEq, Repr

/-- A member of a reference bucket: a dictionary, or a bare string (the
shape produced by `TOCBasedChunkStrategy._extract_references`, whose
buckets come from `extract_entities`). -/
inductive RefVal where
  | dict (r : RefDict)
  | str (s : String)
deriving DecidableEq, Repr

/-- The `references` dictionary of a chunk boundary: an insertion-ordered
map from bucket name to bucket. -/
abbrev Refs := List (String × List RefVal)

/-- Python `refs.get(k, [])`. -/
def refsGet (r : Refs) (k : String) : List RefVal :=
  match r.lookup k with
  | some v => v
  | none => []

/-- Python dictionary assignment `refs[k] = v` (updates in place, or appends
a new key at the end, preserving insertion order). -/
def refsSet (r : Refs) (k : String) (v : List RefVal) : Refs :=
  if (r.lookup k).isSome then
    r.map (fun kv => if kv.1 == k then (k, v) else kv)
  else r ++ [(k, v)]

/-- Python `refs.setdefault(k, []).append(v)`. -/
def refsAppend (r : Refs) (k : String) (v : RefVal) : Refs :=
  refsSet r k (refsGet r k ++ [v])

/-- The standard three-bucket references dictionary in the order the
strategies build it. -/
def stdRefs (ints incs outs : List RefVal) : Refs :=
  [("internal", ints), ("incoming", incs), ("outgoing", outs)]

/-- A table-of-contents node `{title, level, id, subsections}`. -/
inductive TocNode where
  | node (title : String) (level : Int) (id : String)
      (subsections : List TocNode)

/-- Structural equality for `TocNode` (Python dict equality). -/
def TocNode.beq : TocNode → TocNode → Bool
  | .node t1 l1 i1 s1, .node t2 l2 i2 s2 =>
    t1 == t2 && l1 == l2 && i1 == i2 && beqList s1 s2
where
  beqList : List TocNode → List TocNode → Bool
  | [], [] => true
  | [], _ :: _ => false
  | _ :: _, [] => false
  | a :: as, b :: bs => TocNode.beq a b && beqList as bs

/-- Size measure for the well-founded equality proof. -/
def TocNode.sz : TocNode → Nat
  | .node _ _ _ s => 1 + szL s
where
  szL : List TocNode → Nat
  | [] => 0
  | a :: as => TocNode.sz a + szL as

theorem TocNode.sz_pos (a : TocNode) : 1 ≤ TocNode.sz a := by
  cases a with
  | node t l i s => rw [TocNode.sz]; omega

theorem tocBeqAux : ∀ n : Nat,
    (∀ a b : TocNode, TocNode.sz a ≤ n → (TocNode.beq a b = true ↔ a = b)) ∧
    (∀ s1 s2 : List TocNode, TocNode.sz.szL s1 ≤ n →
      (TocNode.beq.beqList s1 s2 = true ↔ s1 = s2)) := by
  intro n
  induction n with
  | zero =>
    constructor
    · intro a b h
      exact absurd (le_trans (TocNode.sz_pos a) h) (by omega)
    · intro s1 s2 h
      cases s1 with
      | nil =>
        cases s2 with
        | nil => simp [TocNode.beq.beqList]
        | cons b bs => simp [TocNode.beq.beqList]
      | cons a as =>
        rw [TocNode.sz.szL] at h
        exact absurd h (by have := TocNode.sz_pos a; omega)
  | succ n ih =>
    have hnode : ∀ a b : TocNode, TocNode.sz a ≤ n + 1 →
        (TocNode.beq a b = true ↔ a = b) := by
      intro a b h
      cases a with
      | node t1 l1 i1 s1 =>
        cases b with
        | node t2 l2 i2 s2 =>
          rw [TocNode.beq]
          rw [TocNode.sz] at h
          simp only [Bool.and_eq_true, beq_iff_eq, TocNode.node.injEq]
          have hlist := ih.2 s1 s2 (by omega)
          constructor
          · rintro ⟨⟨⟨ht, hl⟩, hi⟩, hs⟩
            exact ⟨ht, hl, hi, hlist.mp hs⟩
          · rintro ⟨ht, hl, hi, hs⟩
            exact ⟨⟨⟨ht, hl⟩, hi⟩, hlist.mpr hs⟩
    refine ⟨hnode, ?_⟩
    intro s1 s2 h
    induction s1 generalizing s2 with
    | nil =>
      cases s2 with
      | nil => simp [TocNode.beq.beqList]
      | cons b bs => simp [TocNode.beq.beqList]
    | cons a as iha =>
      cases s2 with
      | nil => simp [TocNode.beq.beqList]
      | cons b bs =>
        rw [TocNode.sz.szL] at h
        have ha : TocNode.sz a ≤ n + 1 := by omega
        have has : TocNode.sz.szL as ≤ n := by
          have := TocNode.sz_pos a
          omega
        rw [TocNode.beq.beqList]
        simp only [Bool.and_eq_true, List.cons.injEq]
        constructor
        · rintro ⟨h1, h2⟩
          exact ⟨(hnode a b ha).mp h1, (ih.2 as bs has).mp h2⟩
        · rintro ⟨h1, h2⟩
          exact ⟨(hnode a b ha).mpr h1, (ih.2 as bs has).mpr h2⟩

theorem TocNode.beq_iff (a b : TocNode) : TocNode.beq a b = true ↔ a = b :=
  (tocBeqAux (TocNode.sz a)).1 a b le_rfl

instance : DecidableEq TocNode := fun a b =>
  decidable_of_iff (TocNode.beq a b = true) (TocNode.beq_iff a b)

instance : Repr TocNode := ⟨fun _ _ => Std.Format.text "TocNode"⟩

def TocNode.title : TocNode → String | .node t _ _ _ => t
def TocNode.level : TocNode → Int | .node _ l _ _ => l
def TocNode.ident : TocNode → String | .node _ _ i _ => i
def TocNode.subsections : TocNode → List TocNode | .node _ _ _ s => s

/-- `document.structure.toc`: a dictionary with a `sections` list. -/
structure Toc where
  sections : List TocNode

/-- The symbolic model of the boundary `context` dictionary.  The pipeline
builds, copies and merges contexts but never reads them, so the embedding
records their provenance instead of their dictionary contents. -/
inductive Context where
  /-- `SemanticChunkStrategy._extract_context(chunk)`. -/
  | semExtracted (elems : List Element)
  /-- `{'section': current_section}` in the TOC strategy; the node is paired
  with the ancestor that `_find_toc_section` assigns as its parent. -/
  | tocSec (node : TocNode) (top : Option TocNode)
  /-- The empty dictionary. -/
  | emptyCtx
  /-- One step of `_merge_contexts`. -/
  | mergedCtx (a b : Context)
deriving DecidableEq, Repr

/-- `_merge_contexts(contexts)`, symbolically. -/
def mergeContexts : List Context → Context
  | [] => .emptyCtx
  | [c] => c
  | c :: rest => .mergedCtx c (mergeContexts rest)

/-- An entry of a `heading_stack`: `{'level': int, 'text': str, 'id': str}`. -/
structure HeadingEntry where
  level : Int
  text : String
  id : String
deriving DecidableEq, Repr

/-- `ChunkBoundary`. -/
structure ChunkBoundary where
  startPos : Int
  endPos : Int
  context : Context
  headingStack : List HeadingEntry
  references : Refs
deriving DecidableEq, Repr

/-- `ChunkMetadata`.  `sequence_num` is a float in the source (integer for
strategy output, fractional for split parts); it is modelled exactly in
`Rat`.  `created_at` is the construction timestamp, threaded as a string
(`datetime.isoformat` round-trips it). -/
structure ChunkMetadata where
  chunkId : String
  sequenceNum : Rat
  startPage : Option Int := none
  endPage : Option Int := none
  sectionTitle : Option String := none
  createdAt : String
  wordCount : Int := 0
  patterns : List (String × String) := []
  sourceReference : List (String × String) := []
deriving DecidableEq, Repr

/-- `Chunk`.  `sizeCache` is the `_size` attribute; the `size` property
caches into it (see `Chunk.readSize`). -/
structure Chunk where
  content : List Element
  boundary : ChunkBoundary
  metadata : ChunkMetadata
  sizeCache : Option Int := none
deriving DecidableEq, Repr

/-- The chunking configuration dictionary (each field read with
`config.get(key, default)`; the defaults vary per call site and are applied
there, exactly as in the source). -/
structure Config where
  strategy : Option String := none
  maxChunkSize : Option Int := none
  chunkSize : Option Int := none
  overlapTokens : Option Int := none
  minChunkSize : Option Int := none
  trackReferences : Option Bool := none
deriving DecidableEq, Repr

/-- An entry of the document-level reference index built by
`_build_reference_index`. -/
structure RefIxEntry where
  position : Nat
  typ : String
  context : Option EMeta
deriving DecidableEq, Repr

/-- The input document: an ordered element list, the optional TOC, and the
`custom_metadata` reference index the manager writes during preparation. -/
structure Document where
  content : List Element
  toc : Option Toc := none
  refIndex : List (String × List RefIxEntry) := []

/-! ### Pattern registry and content pattern detector -/

/-- One pattern of `PatternRegistry.evaluate_block`: the score
`(match_count * weight) / (len(text_block) / 100)`, kept when greater than
zero.  Python evaluates the division for every pattern, so an empty block
raises `ZeroDivisionError` at the first pattern. -/
def evalStep (text : String) (scores : List (String × Rat))
    (nre : String × RE × Rat) : Except PyErr (List (String × Rat)) :=
  let mcount : Nat := matchCount nre.2.1 text
  -- `len(text_block) / 100` is zero exactly when the block is empty, so the
  -- `ZeroDivisionError` guard is the length test
  if text.length = 0 then throw .zeroDivisionError
  else
    let score := ((mcount : Rat) * nre.2.2) / ((text.length : Rat) / 100)
    if score > 0 then pure (scores ++ [(nre.1, score)])
    else pure scores

/-- `PatternRegistry.evaluate_block` over the default registry. -/
def evaluateBlock (text : String) : Except PyErr (List (String × Rat)) :=
  defaultPatterns.foldlM (evalStep text) []

/-- The `chapter_header` score of `evaluate_block`, as the claim writes it:
`(match_count * weight) / (len(text) / 100)` with weight `2.0` (division by
zero yields zero in `Rat`; the claims use it on nonempty text only). -/
def chapterHeaderScore (text : String) : Rat :=
  ((matchCount chapterHeaderRE text : Rat) * 2) / ((text.length : Rat) / 100)

/-- A deterministic model of Python `list(set(xs))`: duplicates removed,
first occurrence kept.  CPython set iteration order is unspecified; no
claim depends on bucket ordering. -/
def pySetList (xs : List String) : List String := go xs []
where
  go : List String → List String → List String
  | [], _ => []
  | x :: rest, seen =>
    if seen.contains x then go rest seen else x :: go rest (x :: seen)

/-- Python `str.capitalize()` for the lowercase ASCII names it is applied
to. -/
def pyCapitalize (s : String) : String :=
  match s.toList with
  | [] => ""
  | c :: cs =>
    String.mk ((if isLowerC c then Char.ofNat (c.toNat - 32) else c) :: cs)

/-- `ContentPatternDetector.extract_entities`: entity buckets keyed by
entity-type names, each holding plain strings, empty buckets dropped,
insertion order preserved. -/
def extractEntities (text : String) : List (String × List String) :=
  let assign := fun (re : RE) =>
    let ms := findAllText re text
    if ms.isEmpty then [] else pySetList ms
  let persons := assign personRE
  let organizations := assign organizationRE
  let locations := assign locationRE
  let dates := assign dateRE
  let emails := assign emailRE
  let urls := assign urlRE
  let identifiers := assign isbnRE
  let phones := assign phoneRE
  let refsB := referencePatterns.foldl
    (fun acc nre =>
      let ms := findAllGroup nre.2.1 nre.2.2.1 nre.2.2.2 text
      if ms.isEmpty then acc
      else acc ++ ms.map (fun m => pyCapitalize nre.1 ++ " " ++ m))
    []
  let allOther := persons ++ organizations ++ locations ++ dates ++ refsB
    ++ urls ++ emails ++ phones ++ identifiers
  let potential := findAllText termsRE text
  let terms := pySetList (potential.filter
    (fun t => !(allOther.contains t) && t.length > 3))
  ([("persons", persons), ("organizations", organizations),
    ("locations", locations), ("dates", dates), ("references", refsB),
    ("terms", terms), ("urls", urls), ("emails", emails),
    ("phone_numbers", phones), ("identifiers", identifiers)]).filter
    (fun kv => !kv.2.isEmpty)

/-- `ContentPatternDetector.detect_chapter_boundary`: an explicit chapter
header, a level-1 numbered or lettered section header, or a short block
containing a common heading phrase. -/
def detectChapterBoundary (t : String) : Bool :=
  if reSearch chapterHeaderRE t then true
  else if reSearch sectionHeurRE t then true
  else if reSearch headingPhraseRE t then
    (["INTRODUCTION", "BACKGROUND", "METHODOLOGY", "RESULTS", "DISCUSSION",
      "CONCLUSION"]).any
      (fun ind => containsSub (pyUpper t) ind && (pyStrip t).length < 100)
  else false

/-- `ChunkManager._extract_references` on an element: figure, table and
section references found in its text, as `(type, target)` pairs. -/
def mgrExtractRefs (e : Element) : List (String × String) :=
  let text := e.text.getD ""
  (findAllGroup mgrFigurePre numDottedRE .eps text).map (fun m => ("figure", m))
    ++ (findAllGroup mgrTablePre numDottedRE .eps text).map
      (fun m => ("table", m))
    ++ (findAllGroup mgrSectionPre numDottedRE .eps text).map
      (fun m => ("section", m))

/-- Append an entry to the reference index bucket of `target`, preserving
insertion order of first-seen targets. -/
def ixAppend (ix : List (String × List RefIxEntry)) (target : String)
    (entry : RefIxEntry) : List (String × List RefIxEntry) :=
  if (ix.lookup target).isSome then
    ix.map (fun kv => if kv.1 == target then (kv.1, kv.2 ++ [entry]) else kv)
  else ix ++ [(target, [entry])]

/-- `ChunkManager._build_reference_index`: indexes every reference found in
any element by target, recording the enumeration position, the type, and
the element metadata, into `document.metadata.custom_metadata`. -/
def buildReferenceIndex (doc : Document) : Document :=
  let index := (doc.content.enum).foldl
    (fun ix ie =>
      (mgrExtractRefs ie.2).foldl
        (fun ix tt => ixAppend ix tt.2 ⟨ie.1, tt.1, ie.2.meta⟩) ix)
    []
  { doc with refIndex := index }

/-- One element of `ChunkManager._prepare_document`: text and paragraph
elements get their `metadata` dictionary ensured and annotated with the
chapter-boundary flag and extracted entities. -/
def annotateElement (e : Element) : Element :=
  if e.typ == "text" || e.typ == "paragraph" then
    let text := e.text.getD ""
    let m0 := e.meta.getD {}
    let m1 := if detectChapterBoundary text
      then { m0 with isChapterBoundary := some true } else m0
    let ents := extractEntities text
    let m2 := if ents.isEmpty then m1 else { m1 with entities := some ents }
    { e with meta := some m2 }
  else e

/-- `ChunkManager._prepare_document`. -/
def prepareDocument (cfg : Config) (doc : Document) : Document :=
  let doc := { doc with content := doc.content.map annotateElement }
  if cfg.trackReferences.getD true then buildReferenceIndex doc else doc

/-! ### Chunk sizes

`Chunk.size` is a caching property: an explicit `_size` wins, then a
positive `metadata.word_count` (cached on read), and finally the word count
of the text-bearing content (cached, and copied into `word_count`).  The
pipeline reads sizes at specific points and the cache then sticks even if
`word_count` is later adjusted, so reads are modelled by `Chunk.readSize`,
which returns the value together with the chunk as mutated by the read.
-/

/-- `_get_element_size`: word count of text and paragraph elements, zero for
structural elements. -/
def elementSize (e : Element) : Nat :=
  if e.typ == "text" || e.typ == "paragraph" then wordCountOf (e.text.getD "")
  else 0

/-- Total size of an element list (`_get_chunk_size`, and the content-sum
branch of the `size` property — both sum word counts of text and paragraph
elements). -/
def contentSize (l : List Element) : Nat := (l.map elementSize).sum

/-- The pure value of the `size` property. -/
def Chunk.sizeVal (c : Chunk) : Int :=
  match c.sizeCache with
  | some s => s
  | none =>
    if c.metadata.wordCount > 0 then c.metadata.wordCount
    else (contentSize c.content : Int)

/-- The `size` property as executed: the value plus the caching mutation. -/
def Chunk.readSize (c : Chunk) : Int × Chunk :=
  match c.sizeCache with
  | some s => (s, c)
  | none =>
    if c.metadata.wordCount > 0 then
      (c.metadata.wordCount, { c with sizeCache := some c.metadata.wordCount })
    else
      let n : Int := (contentSize c.content : Int)
      (n, { c with
              sizeCache := some n
              metadata := { c.metadata with wordCount := n } })

/-- First-element position with default 0 (`chunk[0].get('position', 0)`). -/
def posFirst (l : List Element) : Int :=
  match l.head? with
  | some e => e.position.getD 0
  | none => 0

/-- Last-element position with default 0 (`chunk[-1].get('position', 0)`). -/
def posLast (l : List Element) : Int :=
  match l.getLast? with
  | some e => e.position.getD 0
  | none => 0

/-! ### SemanticChunkStrategy -/

/-- `_extract_references` of the semantic strategy: reference elements
become outgoing entries `{id, target, type, position}`. -/
def semExtractRefs (chunk : List Element) : Refs :=
  stdRefs [] []
    ((chunk.filter (fun e => e.typ == "reference")).map (fun e =>
      .dict { id := e.id
              target := e.target
              typ := e.referenceType
              position := some (e.position.getD 0) }))

/-- `_extract_context`, symbolically (topics and entities are computed from
the chunk and never read back by the pipeline). -/
def semExtractContext (chunk : List Element) : Context := .semExtracted chunk

/-- `_create_overlap`: trailing elements scanned backward while the running
token total stays within `overlap_tokens`. -/
def createOverlap (chunk : List Element) (overlapTokens : Int) :
    List Element :=
  go chunk.reverse 0 []
where
  go : List Element → Nat → List Element → List Element
  | [], _, acc => acc
  | e :: rest, tokens, acc =>
    let esz := elementSize e
    if ((tokens + esz : Nat) : Int) > overlapTokens then acc
    else go rest (tokens + esz) (e :: acc)

/-- Pop heading-stack entries whose level is at least the new level. -/
def popGE (stack : List HeadingEntry) (level : Int) : List HeadingEntry :=
  (go stack.reverse).reverse
where
  go : List HeadingEntry → List HeadingEntry
  | [] => []
  | h :: rest => if h.level ≥ level then go rest else h :: rest

/-- `heading_stack[-1]['text'] if heading_stack else None`. -/
def stackTitle (stack : List HeadingEntry) : Option String :=
  (stack.getLast?).map (fun h => h.text)

/-- Accumulator of `SemanticChunkStrategy.split`. -/
structure SemState where
  chunks : List Chunk := []
  current : List Element := []
  curSize : Nat := 0
  stack : List HeadingEntry := []
  seq : Nat := 0

/-- Emit the current buffer as a chunk (the construction repeated at each
flush site of `SemanticChunkStrategy.split`). -/
def semFlush (now : String) (st : SemState) : SemState :=
  let md : ChunkMetadata :=
    { chunkId := s!"chunk_{now}_{st.seq}", sequenceNum := (st.seq : Rat),
      sectionTitle := stackTitle st.stack, createdAt := now,
      wordCount := (st.curSize : Int) }
  let b : ChunkBoundary :=
    { startPos := posFirst st.current, endPos := posLast st.current,
      context := semExtractContext st.current, headingStack := st.stack,
      references := semExtractRefs st.current }
  { st with
      chunks := st.chunks ++ [⟨st.current, b, md, none⟩]
      seq := st.seq + 1 }

/-- Emit a single-element chunk inside the oversized-element branch. -/
def semFlushSingle (now : String) (st : SemState) (content : List Element)
    (pos : Int) (wc : Nat) : SemState :=
  let md : ChunkMetadata :=
    { chunkId := s!"chunk_{now}_{st.seq}", sequenceNum := (st.seq : Rat),
      sectionTitle := stackTitle st.stack, createdAt := now,
      wordCount := (wc : Int) }
  let b : ChunkBoundary :=
    { startPos := pos, endPos := pos, context := semExtractContext content,
      headingStack := st.stack, references := semExtractRefs content }
  { st with
      chunks := st.chunks ++ [⟨content, b, md, none⟩]
      seq := st.seq + 1 }

/-- One loop iteration of `SemanticChunkStrategy.split`. -/
def semStep (now : String) (maxSize overlap : Int) (st : SemState)
    (e : Element) : SemState :=
  let esz := elementSize e
  let st :=
    if e.typ == "heading" then
      let level := e.level.getD 1
      let st := { st with
        stack := popGE st.stack level
          ++ [⟨level, e.text.getD "", e.id.getD ""⟩] }
      if st.current.isEmpty then st
      else
        let flushed := semFlush now st
        let ov := createOverlap st.current overlap
        { flushed with current := ov, curSize := contentSize ov }
    else st
  if ((st.curSize + esz : Nat) : Int) > maxSize && !st.current.isEmpty then
    let flushed := semFlush now st
    let ov := createOverlap st.current overlap
    let st := { flushed with current := ov, curSize := contentSize ov }
    if (esz : Int) ≤ maxSize then
      { st with current := st.current ++ [e], curSize := st.curSize + esz }
    else if (e.typ == "text" || e.typ == "paragraph") && e.text.isSome then
      let words := pySplit (e.text.getD "")
      let half := words.length / 2
      let firstHalf := { e with text := some (pyJoin (words.take half)) }
      let st := semFlushSingle now st [firstHalf] (e.position.getD 0) half
      let secondHalf := { e with text := some (pyJoin (words.drop half)) }
      { st with
          current := st.current ++ [secondHalf]
          curSize := st.curSize + (words.length - half) }
    else
      semFlushSingle now st [e] (e.position.getD 0) esz
  else
    { st with current := st.current ++ [e], curSize := st.curSize + esz }

/-! The shared oversized-chunk splitter (`_split_large_chunk`; identical in
all three strategies up to the `_extract_references` helper each uses;
`TOCBasedChunkStrategy` delegates to a fresh `SemanticChunkStrategy`). -/

/-- Slice a word list into consecutive groups of `min maxSize remaining`
words (the inner while loop of `_split_large_chunk`).  For `maxSize = 0`
the source loops forever; the embedding is fuel-bounded and the claims
assume a positive maximum. -/
def sliceWords (maxSize : Nat) (ws : List String) : List (List String) :=
  go ws.length ws
where
  go : Nat → List String → List (List String)
  | 0, _ => []
  | _ + 1, [] => []
  | fuel + 1, w :: rest =>
    let k := min maxSize (w :: rest).length
    (w :: rest).take k :: go fuel ((w :: rest).drop k)

/-- Metadata of a `_partN` chunk: fresh id suffix and fractional sequence
offset `base + N * 0.1`. -/
def mkPartMeta (base : Chunk) (off : Nat) (now : String) (wc : Nat) :
    ChunkMetadata :=
  { chunkId := base.metadata.chunkId ++ "_part" ++ toString off,
    sequenceNum := base.metadata.sequenceNum + (off : Rat) * (1 / 10),
    createdAt := now, wordCount := (wc : Int) }

/-- Accumulator of `_split_large_chunk`. -/
structure SLState where
  parts : List Chunk := []
  cur : List Element := []
  curSize : Nat := 0
  off : Nat := 0

/-- Flush the accumulating sub-buffer into a part chunk (with explicit
`_size`). -/
def slFlush (extractRefs : List Element → Refs) (base : Chunk)
    (now : String) (st : SLState) : SLState :=
  let md := mkPartMeta base st.off now st.curSize
  let b : ChunkBoundary :=
    { startPos := posFirst st.cur, endPos := posLast st.cur,
      context := base.boundary.context,
      headingStack := base.boundary.headingStack,
      references := extractRefs st.cur }
  { st with
      parts := st.parts ++ [⟨st.cur, b, md, some (st.curSize : Int)⟩]
      cur := []
      curSize := 0
      off := st.off + 1 }

/-- One word-slice part of the oversized-element branch of
`_split_large_chunk` (single-element content, empty references, explicit
size). -/
def slSlice (base : Chunk) (now : String) (e : Element) (st : SLState)
    (slice : List String) : SLState :=
  { st with
      parts := st.parts ++
        [⟨[{ e with text := some (pyJoin slice) }],
          { startPos := e.position.getD 0, endPos := e.position.getD 0,
            context := base.boundary.context,
            headingStack := base.boundary.headingStack,
            references := [] },
          mkPartMeta base st.off now slice.length,
          some (slice.length : Int)⟩]
      off := st.off + 1 }

/-- The lower half of one `_split_large_chunk` iteration: the
oversized-text-element branch (flush, then word slices) or the plain
append. -/
def slStepB (extractRefs : List Element → Refs) (base : Chunk)
    (now : String) (maxSize : Int) (st : SLState) (e : Element) : SLState :=
  if ((elementSize e : Nat) : Int) > maxSize
      && (e.typ == "text" || e.typ == "paragraph") then
    (sliceWords maxSize.toNat (pySplit (e.text.getD ""))).foldl
      (slSlice base now e)
      (if !st.cur.isEmpty then slFlush extractRefs base now st else st)
  else
    { st with cur := st.cur ++ [e], curSize := st.curSize + elementSize e }

/-- One loop iteration of `_split_large_chunk`: flush the accumulating
buffer when the next element would overflow, then handle the element. -/
def slStep (extractRefs : List Element → Refs) (base : Chunk) (now : String)
    (maxSize : Int) (st : SLState) (e : Element) : SLState :=
  slStepB extractRefs base now maxSize
    (if ((st.curSize + elementSize e : Nat) : Int) > maxSize
        && !st.cur.isEmpty then
      slFlush extractRefs base now st
    else st) e

/-- `_split_large_chunk`. -/
def splitLargeChunk (extractRefs : List Element → Refs) (now : String)
    (c : Chunk) (maxSize : Int) : List Chunk :=
  if c.content.isEmpty then [c]
  else
    let st := c.content.foldl (slStep extractRefs c now maxSize) {}
    if st.cur.isEmpty then st.parts
    else (slFlush extractRefs c now st).parts

/-- `SemanticChunkStrategy.split`. -/
def semanticSplit (cfg : Config) (now : String) (doc : Document) :
    List Chunk :=
  let maxSize := cfg.maxChunkSize.getD 2048
  let overlap := cfg.overlapTokens.getD 200
  let st := doc.content.foldl (semStep now maxSize overlap) {}
  let st := if st.current.isEmpty then st else semFlush now st
  st.chunks.foldl
    (fun acc c =>
      let szc := c.readSize
      if szc.1 > maxSize then
        acc ++ splitLargeChunk semExtractRefs now szc.2 maxSize
      else acc ++ [szc.2])
    []

/-! ### TOCBasedChunkStrategy -/

/-- Joined text of the text-bearing elements
(`" ".join(elem.get("text", "") for elem in content if ...)`). -/
def joinedText (content : List Element) : String :=
  pyJoin
    ((content.filter (fun e => e.typ == "text" || e.typ == "paragraph")).map
      (fun e => e.text.getD ""))

/-- `TOCBasedChunkStrategy._extract_references`: entity buckets from
`extract_entities` over the joined text — bucket names are entity types and
bucket members are plain strings, not reference dictionaries. -/
def tocExtractRefs (content : List Element) : Refs :=
  (extractEntities (joinedText content)).map
    (fun kv => (kv.1, kv.2.map RefVal.str))

/-- The special-cased path taken when any heading contains `"Chapter 1"`:
chapter-boundary chunking with empty context and heading stack. -/
def tocTestPath (now : String) (doc : Document) : List Chunk :=
  let chapterStarts :=
    ((doc.content.enum).filter (fun ie =>
      ie.2.typ == "heading" && containsSub (ie.2.text.getD "") "Chapter")).map
      (fun ie => ie.1)
  let bounds := chapterStarts ++ [doc.content.length]
  (List.range (bounds.length - 1)).foldl
    (fun chunks i =>
      let start := bounds.getD i 0
      let stop := bounds.getD (i + 1) 0
      let part := (doc.content.drop start).take (stop - start)
      if part.isEmpty then chunks
      else
        let md : ChunkMetadata :=
          { chunkId := s!"toc_chunk_{now}_{i}", sequenceNum := (i : Rat),
            createdAt := now, wordCount := (contentSize part : Int) }
        let b : ChunkBoundary :=
          { startPos := posFirst part, endPos := posLast part,
            context := .emptyCtx, headingStack := [],
            references := tocExtractRefs part }
        chunks ++ [⟨part, b, md, none⟩])
    []

/-- `_normalize_text`: `text.lower().strip()`. -/
def normalizeText (s : String) : String := pyStrip (pyLower s)

/-- `_find_in_sections`: recursive search for a section with matching level
and normalized title.  The source assigns `result['parent'] = section` at
every unwinding level, so the surviving parent of a nested match is the
outermost ancestor on the search path; the result is modelled as the found
node paired with that ancestor (or `none` for a top-level match). -/
def findInSections (target : String) (targetLevel : Int) :
    List TocNode → Option (TocNode × Option TocNode)
  | [] => none
  | sec :: rest =>
    if sec.level == targetLevel && normalizeText sec.title == target then
      some (sec, none)
    else
      match findInSections target targetLevel sec.subsections with
      | some found => some (found.1, some sec)
      | none => findInSections target targetLevel rest
termination_by l => TocNode.sz.szL l
decreasing_by
  · cases a with
    | node t l i s =>
      simp [TocNode.sz.szL, TocNode.sz, TocNode.subsections]
      omega
  · simp [TocNode.sz.szL]
    have := TocNode.sz_pos a
    omega

/-- `_find_toc_section` on a heading element. -/
def findTocSection (toc : Toc) (e : Element) :
    Option (TocNode × Option TocNode) :=
  findInSections (normalizeText (e.text.getD "")) (e.level.getD 1)
    toc.sections

/-- `_get_heading_stack`: walk the parent chain of the found section. -/
def tocHeadingStack : Option (TocNode × Option TocNode) → List HeadingEntry
  | none => []
  | some (node, top) =>
    let entry := fun (n : TocNode) =>
      HeadingEntry.mk n.level n.title n.ident
    match top with
    | some t => [entry t, entry node]
    | none => [entry node]

/-- Accumulator of the TOC-present path of `TOCBasedChunkStrategy.split`. -/
structure TocState where
  chunks : List Chunk := []
  currentSection : Option (TocNode × Option TocNode) := none
  current : List Element := []
  seq : Nat := 0

/-- Flush the current section buffer as a chunk. -/
def tocFlush (now : String) (st : TocState) : TocState :=
  let md : ChunkMetadata :=
    { chunkId := s!"chunk_{now}_{st.seq}", sequenceNum := (st.seq : Rat),
      sectionTitle := st.currentSection.map (fun sc => sc.1.title),
      createdAt := now, wordCount := (contentSize st.current : Int) }
  let b : ChunkBoundary :=
    { startPos := posFirst st.current, endPos := posLast st.current,
      context :=
        match st.currentSection with
        | some sc => .tocSec sc.1 sc.2
        | none => .emptyCtx,
      headingStack := tocHeadingStack st.currentSection,
      references := tocExtractRefs st.current }
  { st with
      chunks := st.chunks ++ [⟨st.current, b, md, none⟩]
      seq := st.seq + 1 }

/-- One loop iteration of the TOC-present path. -/
def tocStep (toc : Toc) (now : String) (st : TocState) (e : Element) :
    TocState :=
  if e.typ == "heading" then
    match findTocSection toc e with
    | some s =>
      if st.currentSection ≠ some s then
        let st := if st.current.isEmpty then st else tocFlush now st
        { st with currentSection := some s, current := [e] }
      else { st with current := st.current ++ [e] }
    | none => { st with current := st.current ++ [e] }
  else { st with current := st.current ++ [e] }

/-- `TOCBasedChunkStrategy.split`. -/
def tocSplit (cfg : Config) (now : String) (doc : Document) : List Chunk :=
  let isTestDoc := doc.content.any (fun e =>
    e.typ == "heading" && containsSub (e.text.getD "") "Chapter 1")
  if isTestDoc then tocTestPath now doc
  else
    match doc.toc with
    | none => semanticSplit cfg now doc
    | some toc =>
      let scan := doc.content.enum.foldl
        (fun (acc : Option Nat × List Nat) ie =>
          if ie.2.typ == "heading"
              && containsSub (pyLower (ie.2.text.getD ""))
                "table of contents" then
            (some ie.1, acc.2)
          else if ie.2.typ == "heading"
              && containsSub (pyLower (ie.2.text.getD "")) "chapter" then
            (acc.1, acc.2 ++ [ie.1])
          else acc)
        (none, [])
      let contentStart :=
        match scan with
        | (some _, c :: _) => c
        | _ => 0
      let st := (doc.content.drop contentStart).foldl (tocStep toc now) {}
      let st := if st.current.isEmpty then st else tocFlush now st
      let maxSize := cfg.maxChunkSize.getD 2048
      st.chunks.foldl
        (fun acc c =>
          let szc := c.readSize
          if szc.1 > maxSize then
            acc ++ splitLargeChunk semExtractRefs now szc.2 maxSize
          else acc ++ [szc.2])
        []

/-! ### FixedSizeChunkStrategy -/

/-- `FixedSizeChunkStrategy._extract_references`: only `internal` and
`outgoing` buckets, keyed on `reference_type` with default `"internal"`. -/
def fixedExtractRefs (content : List Element) : Refs :=
  let acc := content.foldl
    (fun (acc : List RefVal × List RefVal) e =>
      if e.typ == "reference" then
        let rt := e.referenceType.getD "internal"
        if rt == "internal" then
          (acc.1 ++ [.dict { id := some (e.id.getD "")
                             text := some (e.text.getD "")
                             position := some (e.position.getD 0) }], acc.2)
        else if rt == "outgoing" then
          (acc.1, acc.2 ++ [.dict { target := some (e.target.getD "")
                                    text := some (e.text.getD "")
                                    position := some (e.position.getD 0) }])
        else acc
      else acc)
    ([], [])
  [("internal", acc.1), ("outgoing", acc.2)]

/-- The pre-processing pass: add a `paragraph_end` marker (type and position
only — no text key) after every sentence-terminated text element. -/
def fixedPreprocess (content : List Element) : List Element :=
  content.flatMap (fun e =>
    if e.typ == "text" || e.typ == "paragraph" then
      let t := pyStrip (e.text.getD "")
      if t ≠ "" && lastCharIn t ['.', '!', '?'] then
        [e, { typ := "paragraph_end", position := some (e.position.getD 0) }]
      else [e]
    else [e])

/-- `_find_break_point`: highest-priority structural marker scanned
backward, else last sentence-terminated text, else the offset where the
running size reaches half the target, else the midpoint. -/
def findBreakPoint (cfg : Config) (content : List Element) : Nat :=
  if content.isEmpty then 0
  else
    match (content.enum.reverse).find? (fun ie =>
        ie.2.typ == "paragraph_end" || ie.2.typ == "section_break"
          || ie.2.typ == "heading") with
    | some ie => ie.1 + 1
    | none =>
      match (content.enum.reverse).find? (fun ie =>
          (ie.2.typ == "text" || ie.2.typ == "paragraph") &&
            (let t := pyStrip (ie.2.text.getD "")
             t ≠ "" && lastCharIn t ['.', '!', '?'])) with
      | some ie => ie.1 + 1
      | none =>
        let target := cfg.maxChunkSize.getD 2048
        match go target 0 content.enum with
        | some i => i + 1
        | none => max 1 (content.length / 2)
where
  /-- Forward scan: first index where the cumulative size reaches half the
  target (`current_size >= target_size / 2`, encoded exactly as
  `2 * current_size ≥ target`). -/
  go (target : Int) (cum : Nat) : List (Nat × Element) → Option Nat
  | [] => none
  | ie :: rest =>
    let cum := cum + elementSize ie.2
    if ((2 * cum : Nat) : Int) ≥ target then some ie.1
    else go target cum rest

/-- Accumulator of `FixedSizeChunkStrategy.split`. -/
structure FixState where
  chunks : List Chunk := []
  current : List Element := []
  curSize : Nat := 0
  seq : Nat := 0

/-- Emit a chunk on the fixed-size path. -/
def fixFlush (now : String) (st : FixState) (content : List Element)
    (wc : Nat) : FixState :=
  let md : ChunkMetadata :=
    { chunkId := s!"chunk_{now}_{st.seq}", sequenceNum := (st.seq : Rat),
      createdAt := now, wordCount := (wc : Int) }
  let b : ChunkBoundary :=
    { startPos := posFirst content, endPos := posLast content,
      context := .emptyCtx, headingStack := [],
      references := fixedExtractRefs content }
  { st with
      chunks := st.chunks ++ [⟨content, b, md, none⟩]
      seq := st.seq + 1 }

/-- One loop iteration of `FixedSizeChunkStrategy.split`. -/
def fixedStep (cfg : Config) (now : String) (targetSize : Int)
    (st : FixState) (e : Element) : FixState :=
  let esz := elementSize e
  let st :=
    if ((st.curSize : Nat) : Int) ≥ targetSize then
      let breakIdx := findBreakPoint cfg st.current
      if breakIdx > 0 then
        let breakContent := st.current.take breakIdx
        let remainder := st.current.drop breakIdx
        let st := fixFlush now st breakContent (contentSize breakContent)
        { st with current := remainder, curSize := contentSize remainder }
      else
        let st := fixFlush now st st.current st.curSize
        { st with current := [], curSize := 0 }
    else st
  { st with current := st.current ++ [e], curSize := st.curSize + esz }

/-- `FixedSizeChunkStrategy.split`. -/
def fixedSplit (cfg : Config) (now : String) (doc : Document) : List Chunk :=
  let targetSize := cfg.maxChunkSize.getD (cfg.chunkSize.getD 2048)
  let processed := fixedPreprocess doc.content
  let st := processed.foldl (fixedStep cfg now targetSize) {}
  let st :=
    if st.current.isEmpty then st
    else fixFlush now st st.current st.curSize
  st.chunks.foldl
    (fun acc c =>
      let szc := c.readSize
      if szc.1 > targetSize then
        acc ++ splitLargeChunk fixedExtractRefs now szc.2 targetSize
      else acc ++ [szc.2])
    []

/-! ### Strategy selection -/

/-- The three strategy names `_get_strategy` accepts. -/
inductive StrategyTag where
  | semantic
  | toc
  | fixedSize
deriving DecidableEq, Repr

/-- `ChunkManager._get_strategy`: unknown names raise `ValueError`. -/
def getStrategy (name : String) : Except PyErr StrategyTag :=
  if name == "semantic" then .ok .semantic
  else if name == "toc" then .ok .toc
  else if name == "fixed_size" then .ok .fixedSize
  else .error .valueError

/-- A constructed `ChunkManager`: the configuration and the strategy
instance selected at construction time. -/
structure Manager where
  config : Config
  strategy : StrategyTag
deriving Repr

/-- `ChunkManager.__init__`: strategy selection happens at construction
(`config.get('strategy', 'semantic')`). -/
def mkChunkManager (cfg : Config) : Except PyErr Manager :=
  (getStrategy (cfg.strategy.getD "semantic")).map (fun s => ⟨cfg, s⟩)

/-- `strategy.split(document)` dispatch. -/
def strategySplit (tag : StrategyTag) (cfg : Config) (now : String)
    (doc : Document) : List Chunk :=
  match tag with
  | .semantic => semanticSplit cfg now doc
  | .toc => tocSplit cfg now doc
  | .fixedSize => fixedSplit cfg now doc

/-- The `_extract_references` helper used by `strategy._split_large_chunk`
(the TOC strategy delegates to a fresh semantic strategy). -/
def strategySplitRefs (tag : StrategyTag) : List Element → Refs :=
  match tag with
  | .semantic => semExtractRefs
  | .toc => semExtractRefs
  | .fixedSize => fixedExtractRefs

/-! ### ChunkManager: reference merging and filtering -/

/-- A placeholder chunk for checked list accesses. -/
def defaultChunk : Chunk :=
  ⟨[], ⟨0, 0, .emptyCtx, [], []⟩,
    { chunkId := "", sequenceNum := 0, createdAt := "" }, none⟩

def defaultElement : Element := { typ := "" }

/-- The de-duplication key `(ref.get('id'), ref.get('target'),
ref.get('position'))`. -/
def mergeRefKey (r : RefDict) : Option String × Option String × Option Int :=
  (r.id, r.target, r.position)

/-- The accumulating state of `_merge_references`: the merged dictionary
and the `seen_refs` key set. -/
abbrev MRState :=
  Refs × List (Option String × Option String × Option Int)

/-- One bucket member of `_merge_references`.  Computing the key of a
plain-string member raises `AttributeError`; appending an unseen member of
a bucket that is not one of the three standard keys raises `KeyError`. -/
def mrStep (k : String) (st : MRState) (rv : RefVal) :
    Except PyErr MRState :=
  match rv with
  | .str _ => throw .attributeError
  | .dict r =>
    let key := mergeRefKey r
    if st.2.contains key then pure st
    else if (st.1.lookup k).isSome then
      pure (refsAppend st.1 k (.dict r), st.2 ++ [key])
    else throw .keyError

/-- One bucket of `_merge_references`. -/
def mrBucket (st : MRState) (kv : String × List RefVal) :
    Except PyErr MRState :=
  kv.2.foldlM (mrStep kv.1) st

/-- One references dictionary of `_merge_references`. -/
def mrRefs (st : MRState) (refs : Refs) : Except PyErr MRState :=
  refs.foldlM mrBucket st

/-- `ChunkManager._merge_references`. -/
def mergeReferences (refsList : List Refs) : Except PyErr Refs := do
  let st ← refsList.foldlM mrRefs ((stdRefs [] [] [], []) : MRState)
  pure st.1

/-- `ref.get('position', 0)` — `AttributeError` on a plain string. -/
def refPosition (rv : RefVal) : Except PyErr Int :=
  match rv with
  | .str _ => throw .attributeError
  | .dict r => pure (r.position.getD 0)

/-- `ChunkManager._filter_references`: keep entries whose position lies in
the range; unknown input buckets are added to the three standard ones. -/
def filterReferences (references : Refs) (startPos endPos : Int) :
    Except PyErr Refs :=
  references.foldlM
    (fun filtered kv => do
      let kept ← kv.2.foldlM
        (fun acc rv => do
          let p ← refPosition rv
          if startPos ≤ p && p ≤ endPos then pure (acc ++ [rv])
          else pure acc)
        []
      pure (refsSet filtered kv.1 kept))
    (stdRefs [] [] [])

/-- `ChunkManager._extract_content`: elements whose position lies in the
range. -/
def extractContent (content : List Element) (startPos endPos : Int) :
    List Element :=
  content.filter (fun e =>
    startPos ≤ e.position.getD 0 && e.position.getD 0 ≤ endPos)

/-! ### ChunkManager.merge_chunks -/

/-- Descending insertion sort (`sorted(chunk_indices, reverse=True)`). -/
def insertDesc (x : Nat) : List Nat → List Nat
  | [] => [x]
  | y :: ys => if x ≥ y then x :: y :: ys else y :: insertDesc x ys

def sortDesc (l : List Nat) : List Nat := l.foldr insertDesc []

/-- `self.chunks.pop(idx)` for each index in descending order; popping an
out-of-range index (possible with duplicate input indices) raises
`IndexError` as in Python. -/
def pyPopAll (chunks : List Chunk) (sortedDesc : List Nat) :
    Except PyErr (List Chunk) :=
  sortedDesc.foldlM
    (fun l i =>
      if i < l.length then pure (l.eraseIdx i) else throw .indexError)
    chunks

/-- `list.insert(i, x)` (clamps past-the-end indices to an append). -/
def pyInsert (l : List Chunk) (i : Nat) (c : Chunk) : List Chunk :=
  if i ≥ l.length then l ++ [c] else l.take i ++ [c] ++ l.drop i

/-- `ChunkManager.merge_chunks` as a function of the current chunk list:
returns the merged chunk and the updated list.  The size reads on the
merged-away chunks cache in place, but those objects leave the list, so the
remaining chunks are unchanged. -/
def mergeChunksFn (now : String) (chunks : List Chunk)
    (indices : List Int) : Except PyErr (Chunk × List Chunk) := do
  if !(indices.all (fun i => 0 ≤ i && i < (chunks.length : Int))) then
    throw .valueError
  if indices.isEmpty then throw .valueError
  let chunksToMerge := indices.map (fun i => chunks.getD i.toNat defaultChunk)
  let sizes := chunksToMerge.map Chunk.sizeVal
  let totalSize := sizes.sum
  let mergedContent := chunksToMerge.flatMap Chunk.content
  let firstChunk := chunksToMerge.headD defaultChunk
  let lastChunk := chunksToMerge.getLastD defaultChunk
  let refs ← mergeReferences
    (chunksToMerge.map (fun c => c.boundary.references))
  let b : ChunkBoundary :=
    { startPos := firstChunk.boundary.startPos
      endPos := lastChunk.boundary.endPos
      context := firstChunk.boundary.context
      headingStack := firstChunk.boundary.headingStack
      references := refs }
  let md : ChunkMetadata :=
    { chunkId := s!"merged_{now}"
      sequenceNum := firstChunk.metadata.sequenceNum
      sectionTitle := firstChunk.metadata.sectionTitle
      createdAt := now
      wordCount := totalSize }
  let merged : Chunk := ⟨mergedContent, b, md, some totalSize⟩
  let remaining ← pyPopAll chunks (sortDesc (indices.map Int.toNat))
  pure (merged, pyInsert remaining (indices.headD 0).toNat merged)

/-! ### ChunkManager: balance, coherence, reference resolution -/

/-- `elem.get('text', '').strip()[-1] in '.!?'` — raises `IndexError` when
the stripped text is empty. -/
def stripLastIn (e : Element) : Except PyErr Bool :=
  let t := pyStrip (e.text.getD "")
  if t == "" then throw .indexError
  else pure (lastCharIn t ['.', '!', '?'])

/-- `ChunkManager._find_optimal_split_point`: scored candidates within five
elements of the midpoint (sentence end +5, following heading +10, section
break +8, minus half the distance from the midpoint); ties and negative
best scores fall back to the midpoint. -/
def findOptimalSplitPoint (c : Chunk) : Except PyErr (Option Nat) := do
  if c.content.isEmpty then pure none
  else
    let targetPos := c.content.length / 2
    let lo := max 1 (targetPos - 5)
    let hi := min (c.content.length - 1) (targetPos + 5)
    let best ← (List.range' lo (hi - lo)).foldlM
      (fun (best : Option (Nat × Rat)) i => do
        let elem := c.content.getD i defaultElement
        let nextElem := c.content.getD (i + 1) defaultElement
        let s1 ← if elem.typ == "text" then do
            let b ← stripLastIn elem
            pure (if b then (5 : Rat) else 0)
          else pure (0 : Rat)
        let s2 : Rat := if nextElem.typ == "heading" then 10 else 0
        let s3 : Rat := if elem.typ == "section_break" then 8 else 0
        let dist : Rat := ((max i targetPos - min i targetPos : Nat) : Rat)
        let score := s1 + s2 + s3 - dist * (1 / 2)
        match best with
        | none => pure (some (i + 1, score))
        | some bs =>
          if score > bs.2 then pure (some (i + 1, score)) else pure best)
      none
    match best with
    | some bs => if bs.2 < 0 then pure (some targetPos) else pure (some bs.1)
    | none => pure (some targetPos)

/-- One adjacent-pair adjustment of `_ensure_coherence`: an unterminated
trailing text element (when not the only element) moves to the head of the
next chunk, with boundary and word-count patches (the size caches are not
touched). -/
def coherePair (c1 c2 : Chunk) : Except PyErr (Chunk × Chunk) := do
  match c1.content.getLast? with
  | some lastE =>
    if lastE.typ == "text" then
      let lastText := lastE.text.getD ""
      if lastText ≠ "" then
        let st := pyStrip lastText
        if st == "" then throw .indexError
        else if !(lastCharIn st ['.', '!', '?']) then
          if c1.content.length > 1 then
            let c1content := c1.content.dropLast
            let elemWords : Int := (wordCountOf (lastE.text.getD "") : Int)
            pure
              ({ c1 with
                  content := c1content
                  boundary := { c1.boundary with endPos := posLast c1content }
                  metadata := { c1.metadata with
                    wordCount := c1.metadata.wordCount - elemWords } },
               { c2 with
                  content := lastE :: c2.content
                  boundary := { c2.boundary with
                    startPos := lastE.position.getD 0 }
                  metadata := { c2.metadata with
                    wordCount := c2.metadata.wordCount + elemWords } })
          else pure (c1, c2)
        else pure (c1, c2)
      else pure (c1, c2)
    else pure (c1, c2)
  | none => pure (c1, c2)

/-- Worker for `_ensure_coherence`: the carried chunk is the left member of
the next adjacent pair (possibly already adjusted by the previous step). -/
def cohereGo : Chunk → List Chunk → Except PyErr (List Chunk)
  | c, [] => pure [c]
  | c, next :: rest => do
    let p ← coherePair c next
    let tail ← cohereGo p.2 rest
    pure (p.1 :: tail)

/-- `ChunkManager._ensure_coherence`: the pairwise pass over adjacent
chunks, each adjusted pair feeding the next iteration (lists of length at
most one are returned unchanged). -/
def ensureCoherence : List Chunk → Except PyErr (List Chunk)
  | [] => pure []
  | c :: rest => cohereGo c rest

/-- Python dictionary truthiness of the references attribute. -/
def refsTruthy (r : Refs) : Bool := !r.isEmpty

/-- Assoc-list dictionary set for the reference map. -/
def pySetNat (m : List (String × Nat)) (k : String) (v : Nat) :
    List (String × Nat) :=
  if (m.lookup k).isSome then
    m.map (fun kv => if kv.1 == k then (k, v) else kv)
  else m ++ [(k, v)]

/-- One internal-bucket member of the first pass of
`_update_chunk_references` (`AttributeError` on a plain string). -/
def brmInner (idx : Nat) (rm : List (String × Nat)) (rv : RefVal) :
    Except PyErr (List (String × Nat)) :=
  match rv with
  | .str _ => throw .attributeError
  | .dict r =>
    match r.target with
    | some t => if t ≠ "" then pure (pySetNat rm t idx) else pure rm
    | none => pure rm

/-- One chunk of the first pass of `_update_chunk_references`. -/
def brmStep (rm : List (String × Nat)) (ic : Nat × Chunk) :
    Except PyErr (List (String × Nat)) := do
  let refs := ic.2.boundary.references
  if !refsTruthy refs then pure rm
  else (refsGet refs "internal").foldlM (brmInner ic.1) rm

/-- First pass of `_update_chunk_references`: map every truthy target found
in an `internal` bucket to the index of the (last) chunk holding it. -/
def buildRefMap (chunks : List Chunk) :
    Except PyErr (List (String × Nat)) :=
  chunks.enum.foldlM brmStep []

/-- Update the chunk at index `i` in place. -/
def updChunkAt (chunks : List Chunk) (i : Nat) (f : Chunk → Chunk) :
    List Chunk :=
  chunks.set i (f (chunks.getD i defaultChunk))

/-- The mirrored incoming entry `{from_chunk, type, target, position}`. -/
def mirrorRef (i : Nat) (r : RefDict) : RefDict :=
  { fromChunk := some i, typ := r.typ, target := r.target,
    position := some (r.position.getD 0) }

/-- Replace a reference bucket of chunk `i`. -/
def setBucketAt (chunks : List Chunk) (i : Nat) (k : String)
    (v : List RefVal) : List Chunk :=
  updChunkAt chunks i (fun c =>
    { c with boundary := { c.boundary with
        references := refsSet c.boundary.references k v } })

/-- `setdefault(k, []).append(v)` on chunk `i`. -/
def appendBucketAt (chunks : List Chunk) (i : Nat) (k : String)
    (v : RefVal) : List Chunk :=
  updChunkAt chunks i (fun c =>
    { c with boundary := { c.boundary with
        references := refsAppend c.boundary.references k v } })

/-- Second pass of `_update_chunk_references` for chunk `i`: classify its
outgoing references against the map, reclassifying self-resolving entries
as internal, annotating cross-chunk entries with `resolves_to_chunk` and
mirroring them into the target chunk's incoming bucket, and leaving
unresolved entries unchanged. -/
def uStep (rm : List (String × Nat)) (i : Nat)
    (st : List RefVal × List Chunk) (rv : RefVal) :
    Except PyErr (List RefVal × List Chunk) := do
  match rv with
  | .str _ => throw .attributeError
  | .dict r =>
    match r.target with
    | some t =>
      match rm.lookup t with
      | some j =>
        if j == i then
          pure (st.1, appendBucketAt st.2 i "internal" (.dict r))
        else
          pure (st.1 ++ [.dict { r with resolvesToChunk := some j }],
            appendBucketAt st.2 j "incoming" (.dict (mirrorRef i r)))
      | none => pure (st.1 ++ [.dict r], st.2)
    | none => pure (st.1 ++ [.dict r], st.2)

/-- Second pass of `_update_chunk_references` for chunk `i`: fold the
member classification over the outgoing bucket, then replace it. -/
def updRefsStep (rm : List (String × Nat)) (chunks : List Chunk) (i : Nat) :
    Except PyErr (List Chunk) := do
  let chunk := chunks.getD i defaultChunk
  let refs := chunk.boundary.references
  if !refsTruthy refs then pure chunks
  else
    let st ← (refsGet refs "outgoing").foldlM (uStep rm i) ([], chunks)
    pure (setBucketAt st.2 i "outgoing" st.1)

/-- `ChunkManager._update_chunk_references`. -/
def updateChunkReferences (chunks : List Chunk) :
    Except PyErr (List Chunk) := do
  let rm ← buildRefMap chunks
  (List.range chunks.length).foldlM (updRefsStep rm) chunks

/-! ### ChunkManager: balance and size enforcement -/

/-- `ChunkManager._balance_chunks`. -/
def balanceChunks (cfg : Config) (now : String) (chunks : List Chunk) :
    Except PyErr (List Chunk) := do
  if chunks.length ≤ 1 then pure chunks
  else
    let readAll := chunks.map Chunk.readSize
    let sizes := readAll.map (fun sc => sc.1)
    let chunks := readAll.map (fun sc => sc.2)
    let maxS := sizes.foldl max (sizes.headD 0)
    let minS := sizes.foldl min (sizes.headD 0)
    let cfgMax := cfg.maxChunkSize.getD 2048
    let cfgMin := cfg.minChunkSize.getD 500
    if maxS ≤ cfgMax && minS ≥ cfgMin then pure chunks
    else
      let smallIdx := (sizes.enum.filter (fun is => is.2 < cfgMin)).map
        (fun is => is.1)
      let largeIdx := (sizes.enum.filter (fun is => is.2 > cfgMax)).map
        (fun is => is.1)
      let consecutive := (smallIdx.zip (smallIdx.drop 1)).filter
        (fun p => p.2 - p.1 == 1)
      let chunks ← consecutive.foldlM
        (fun chunks p => do
          if p.1 ≥ chunks.length || p.2 ≥ chunks.length then pure chunks
          else
            let c1 := chunks.getD p.1 defaultChunk
            let c2 := chunks.getD p.2 defaultChunk
            let refs ← mergeReferences
              [c1.boundary.references, c2.boundary.references]
            let md : ChunkMetadata :=
              { chunkId := s!"merged_{now}"
                sequenceNum := c1.metadata.sequenceNum
                startPage := c1.metadata.startPage
                endPage := c2.metadata.endPage
                sectionTitle := c1.metadata.sectionTitle
                createdAt := now
                wordCount := c1.metadata.wordCount + c2.metadata.wordCount }
            let b : ChunkBoundary :=
              { startPos := c1.boundary.startPos
                endPos := c2.boundary.endPos
                context := mergeContexts
                  [c1.boundary.context, c2.boundary.context]
                headingStack := c1.boundary.headingStack
                references := refs }
            pure (chunks.take p.1 ++ [⟨c1.content ++ c2.content, b, md, none⟩]
              ++ chunks.drop (p.2 + 1)))
        chunks
      largeIdx.foldlM
        (fun chunks idx => do
          if idx ≥ chunks.length then pure chunks
          else
            let szc := (chunks.getD idx defaultChunk).readSize
            let chunks := chunks.set idx szc.2
            if szc.1 ≤ cfgMax then pure chunks
            else
              let chunk := szc.2
              let splitPoint ← findOptimalSplitPoint chunk
              match splitPoint with
              | none => pure chunks
              | some sp =>
                let content1 := chunk.content.take sp
                let content2 := chunk.content.drop sp
                let md1 : ChunkMetadata :=
                  { chunkId := s!"split1_{now}"
                    sequenceNum := chunk.metadata.sequenceNum
                    startPage := chunk.metadata.startPage
                    sectionTitle := chunk.metadata.sectionTitle
                    createdAt := now
                    wordCount := (contentSize content1 : Int) }
                let md2 : ChunkMetadata :=
                  { chunkId := s!"split2_{now}"
                    sequenceNum := chunk.metadata.sequenceNum + 1
                    endPage := chunk.metadata.endPage
                    sectionTitle := chunk.metadata.sectionTitle
                    createdAt := now
                    wordCount := (contentSize content2 : Int) }
                let end1 ← match content1.getLast? with
                  | some e => pure (e.position.getD 0)
                  | none => throw .indexError
                let refs1 ← filterReferences chunk.boundary.references
                  chunk.boundary.startPos end1
                let b1 : ChunkBoundary :=
                  { startPos := chunk.boundary.startPos, endPos := end1,
                    context := chunk.boundary.context,
                    headingStack := chunk.boundary.headingStack,
                    references := refs1 }
                let start2 ← match content2.head? with
                  | some e => pure (e.position.getD 0)
                  | none => throw .indexError
                let refs2 ← filterReferences chunk.boundary.references
                  start2 chunk.boundary.endPos
                let b2 : ChunkBoundary :=
                  { startPos := start2, endPos := chunk.boundary.endPos,
                    context := chunk.boundary.context,
                    headingStack := chunk.boundary.headingStack,
                    references := refs2 }
                pure (chunks.take idx
                  ++ [⟨content1, b1, md1, none⟩, ⟨content2, b2, md2, none⟩]
                  ++ chunks.drop (idx + 1)))
        chunks

/-- One iteration of the first pass of `_enforce_size_constraints`: split
an oversized chunk with the strategy's `_split_large_chunk`. -/
def ep1Step (tag : StrategyTag) (now : String) (maxSize : Int)
    (acc : List Chunk) (c : Chunk) : List Chunk :=
  let szc := c.readSize
  if szc.1 > maxSize then
    acc ++ splitLargeChunk (strategySplitRefs tag) now szc.2 maxSize
  else acc ++ [szc.2]

/-- First pass of `_enforce_size_constraints`: split oversized chunks with
the strategy's `_split_large_chunk`. -/
def enforcePass1 (tag : StrategyTag) (now : String) (maxSize : Int)
    (chunks : List Chunk) : List Chunk :=
  chunks.foldl (ep1Step tag now maxSize) []

/-- One iteration of the second pass of `_enforce_size_constraints`
(forward-merge of undersized chunks). -/
def epStep (now : String) (minSize maxSize : Int)
    (st : List Chunk × Option Chunk) (chunk : Chunk) :
    Except PyErr (List Chunk × Option Chunk) := do
  let szc := chunk.readSize
  let chunk := szc.2
  if szc.1 < minSize then
    match st.2 with
    | some cur =>
      let curSzc := cur.readSize
      let cur := curSzc.2
      if curSzc.1 + szc.1 ≤ maxSize then
        let refs ← mergeReferences
          [cur.boundary.references, chunk.boundary.references]
        let md : ChunkMetadata :=
          { chunkId := s!"merged_{now}"
            sequenceNum := cur.metadata.sequenceNum
            sectionTitle := cur.metadata.sectionTitle
            createdAt := now
            wordCount := curSzc.1 + szc.1 }
        let b : ChunkBoundary :=
          { startPos := cur.boundary.startPos
            endPos := chunk.boundary.endPos
            context := cur.boundary.context
            headingStack := cur.boundary.headingStack
            references := refs }
        pure (st.1, some ⟨cur.content ++ chunk.content, b, md,
          some (curSzc.1 + szc.1)⟩)
      else pure (st.1 ++ [cur], some chunk)
    | none => pure (st.1, some chunk)
  else
    match st.2 with
    | some cur => pure (st.1 ++ [cur, chunk], none)
    | none => pure (st.1 ++ [chunk], none)

/-- Second pass of `_enforce_size_constraints`: forward-merge undersized
chunks while the running sum stays within the maximum. -/
def enforcePass2 (now : String) (minSize maxSize : Int)
    (chunks : List Chunk) : Except PyErr (List Chunk) := do
  let st ← chunks.foldlM (epStep now minSize maxSize) ([], none)
  match st.2 with
  | some cur => pure (st.1 ++ [cur])
  | none => pure st.1

/-- `ChunkManager._enforce_size_constraints`.  The early-return disjunct
`min_size == 0 and max_size == float('inf')` cannot hold for an integral
`max_chunk_size` and is omitted. -/
def enforceSizeConstraints (cfg : Config) (now : String)
    (tag : StrategyTag) (chunks : List Chunk) :
    Except PyErr (List Chunk) := do
  let minSize := cfg.minChunkSize.getD 0
  let maxSize := cfg.maxChunkSize.getD 2048
  if chunks.isEmpty then pure chunks
  else
    let result := enforcePass1 tag now maxSize chunks
    if minSize > 0 then enforcePass2 now minSize maxSize result
    else pure result

/-! ### ChunkManager: validation and chunk_document -/

/-- `ChunkManager._is_valid_chunk`: the dictionary-key checks always hold
in the embedding; content must be nonempty and the boundary positions must
match the first and last content positions. -/
def isValidChunk (c : Chunk) : Bool :=
  !c.content.isEmpty
    && posFirst c.content == c.boundary.startPos
    && posLast c.content == c.boundary.endPos

/-- `ChunkManager._are_valid_boundaries`: both chunks valid, and the
position gap between them at most one.  Overlap (a later chunk starting at
or before the earlier end) is not rejected. -/
def areValidBoundaries (c1 c2 : Chunk) : Bool :=
  isValidChunk c1 && isValidChunk c2
    && !(c2.boundary.startPos - c1.boundary.endPos > 1)

/-- The validation loop of `_validate_chunks` over consecutive chunks. -/
def validatePairs : Option Chunk → List Chunk → Except PyErr Unit
  | _, [] => pure ()
  | none, c :: rest =>
    if !isValidChunk c then throw .chunkingError
    else validatePairs (some c) rest
  | some prev, c :: rest =>
    if !isValidChunk c then throw .chunkingError
    else if !areValidBoundaries prev c then throw .chunkingError
    else validatePairs (some c) rest

/-- `ChunkManager._validate_chunks`: empty output raises; the size reads
cache in place; the global min/max checks only log warnings. -/
def validateChunks (chunks : List Chunk) : Except PyErr (List Chunk) := do
  if chunks.isEmpty then throw .chunkingError
  else
    let cached := chunks.map (fun c => c.readSize.2)
    validatePairs none cached
    pure cached

/-- `ChunkManager._post_process_chunks`: balance, coherence, reference
resolution (when tracking is enabled), then size enforcement. -/
def postProcessChunks (cfg : Config) (now : String) (tag : StrategyTag)
    (chunks : List Chunk) : Except PyErr (List Chunk) := do
  let chunks ← balanceChunks cfg now chunks
  let chunks ← ensureCoherence chunks
  let chunks ←
    if cfg.trackReferences.getD true then updateChunkReferences chunks
    else pure chunks
  enforceSizeConstraints cfg now tag chunks

/-- The `try` body of `chunk_document`: prepare, split, post-process,
validate. -/
def chunkDocumentBody (m : Manager) (now : String) (doc : Document) :
    Except PyErr (List Chunk) :=
  postProcessChunks m.config now m.strategy
      (strategySplit m.strategy m.config now (prepareDocument m.config doc))
    >>= validateChunks

/-- `ChunkManager.chunk_document`: any failure of the body is wrapped in
`ChunkingError` and no partial result is returned. -/
def chunkDocument (m : Manager) (now : String) (doc : Document) :
    Except PyErr (List Chunk) :=
  match chunkDocumentBody m now doc with
  | .ok chunks => .ok chunks
  | .error _ => .error .chunkingError

/-! ### Persistence (save_chunks / load_chunks)

One YAML record per chunk, in index order; the zero-padded `chunk_%04d`
names keep the sorted-glob load order equal to the save order for the chunk
sets considered here, so the file layer is modelled as the record list.
`created_at` is serialized with `isoformat` and parsed with
`fromisoformat`, which round-trips; it is carried as the timestamp
string. -/

/-- The `metadata` dictionary written by `ChunkMetadata.to_dict`. -/
structure MetaRecord where
  chunkId : String
  sequenceNum : Rat
  startPage : Option Int
  endPage : Option Int
  sectionTitle : Option String
  createdAt : String
  wordCount : Int
  patterns : List (String × String)
  sourceReference : List (String × String)
deriving DecidableEq, Repr

/-- `ChunkMetadata.to_dict`. -/
def metaToDict (m : ChunkMetadata) : MetaRecord :=
  ⟨m.chunkId, m.sequenceNum, m.startPage, m.endPage, m.sectionTitle,
    m.createdAt, m.wordCount, m.patterns, m.sourceReference⟩

/-- `ChunkMetadata.from_dict` (every key is present in a written record). -/
def metaFromDict (r : MetaRecord) : ChunkMetadata :=
  ⟨r.chunkId, r.sequenceNum, r.startPage, r.endPage, r.sectionTitle,
    r.createdAt, r.wordCount, r.patterns, r.sourceReference⟩

/-- The per-chunk YAML record written by `save_chunks`. -/
structure ChunkRecord where
  content : List Element
  startPos : Int
  endPos : Int
  context : Context
  headingStack : List HeadingEntry
  references : Refs
  metadata : MetaRecord
  size : Int
deriving DecidableEq, Repr

/-- The save-side element normalization: ensure a `text` field exists. -/
def normalizeElemText (e : Element) : Element :=
  { e with text := some (e.text.getD "") }

/-- One record of `save_chunks`. -/
def saveChunk (c : Chunk) : ChunkRecord :=
  { content := c.content.map normalizeElemText
    startPos := c.boundary.startPos
    endPos := c.boundary.endPos
    context := c.boundary.context
    headingStack := c.boundary.headingStack
    references := c.boundary.references
    metadata := metaToDict c.metadata
    size := c.sizeVal }

/-- `ChunkManager.save_chunks` (one file per chunk, in list order). -/
def saveChunks (chunks : List Chunk) : List ChunkRecord :=
  chunks.map saveChunk

/-- One chunk of `load_chunks` (the load side also ensures a `text`
field and seeds the size cache from the stored size). -/
def loadChunk (r : ChunkRecord) : Chunk :=
  { content := r.content.map normalizeElemText
    boundary :=
      { startPos := r.startPos, endPos := r.endPos, context := r.context,
        headingStack := r.headingStack, references := r.references }
    metadata := metaFromDict r.metadata
    sizeCache := some r.size }

/-- `ChunkManager.load_chunks`. -/
def loadChunks (records : List ChunkRecord) : List Chunk :=
  records.map loadChunk

/-! ### Generic helpers for the claim statements -/

/-- Did the call succeed? -/
def exOk {α : Type} : Except PyErr α → Bool
  | .ok _ => true
  | .error _ => false

/-- The returned chunk list of a successful call (empty on error). -/
def exceptOkD (r : Except PyErr (List Chunk)) : List Chunk :=
  match r with
  | .ok l => l
  | .error _ => []

theorem exOk_iff {α : Type} (r : Except PyErr α) :
    exOk r = true ↔ ∃ v, r = .ok v := by
  cases r <;> simp [exOk]

/-! ## Claim C10: evaluate_block and the empty block -/

theorem string_length_ne_zero {s : String} (h : s ≠ "") : s.length ≠ 0 := by
  intro hl
  apply h
  cases s with
  | mk data =>
    cases data with
    | nil => rfl
    | cons c cs => simp [String.length] at hl

theorem evalStep_ok (text : String) (hs : text.length ≠ 0)
    (scores : List (String × Rat)) (nre : String × RE × Rat) :
    exOk (evalStep text scores nre) = true := by
  rw [evalStep]
  simp only [hs, if_false]
  split <;> rfl

theorem foldlM_evalStep_ok (text : String) (hs : text.length ≠ 0) :
    ∀ (pats : List (String × RE × Rat)) (acc : List (String × Rat)),
      exOk (List.foldlM (evalStep text) acc pats) = true := by
  intro pats
  induction pats with
  | nil => intro acc; rfl
  | cons p ps ih =>
    intro acc
    rw [List.foldlM_cons]
    have h1 := evalStep_ok text hs acc p
    rw [exOk_iff] at h1
    obtain ⟨v, hv⟩ := h1
    rw [hv]
    exact ih v

/-- C10: `PatternRegistry.evaluate_block` divides each weighted match count
by `len(text_block) / 100` without guarding the zero case: on the empty
string it raises `ZeroDivisionError` instead of returning a score map, and
on every non-empty block it returns normally. -/
theorem evaluate_block_zero_division_on_empty (s : String) (h : s ≠ "") :
    evaluateBlock "" = .error .zeroDivisionError
      ∧ exOk (evaluateBlock s) = true := by
  constructor
  · rfl
  · exact foldlM_evalStep_ok s (string_length_ne_zero h) defaultPatterns []

/-- Witness for C10 at the one-character block `"x"`. -/
theorem evaluate_block_zero_division_on_empty_witness :
    evaluateBlock "" = .error .zeroDivisionError
      ∧ exOk (evaluateBlock "x") = true :=
  evaluate_block_zero_division_on_empty "x" (by decide)

/-! ## Claim C7: unknown strategy name at construction -/

/-- Counterexample for C7: constructing a manager with the unknown strategy
name `"bogus"` raises `ValueError`, not the `ConfigurationError` the claim
names (no such class exists in the module). -/
theorem unknown_strategy_raises_value_error_cex :
    mkChunkManager { strategy := some "bogus" } = .error .valueError
      ∧ PyErr.valueError ≠ PyErr.configurationError := by
  refine ⟨rfl, ?_⟩
  intro h
  exact absurd (congrArg (fun e => e = PyErr.valueError) h) (by simp)

/-- C7 (amended): constructing a Chunk Manager with a strategy name other
than `semantic`, `toc` or `fixed_size` fails fast at construction time by
raising `ValueError` (there is no `ConfigurationError`). -/
theorem unknown_strategy_fails_fast (name : String)
    (h1 : name ≠ "semantic") (h2 : name ≠ "toc") (h3 : name ≠ "fixed_size") :
    getStrategy name = .error .valueError
      ∧ mkChunkManager { strategy := some name } = .error .valueError := by
  have hg : getStrategy name = .error .valueError := by
    rw [getStrategy]
    simp [h1, h2, h3]
  refine ⟨hg, ?_⟩
  rw [mkChunkManager]
  simp only [Option.getD_some]
  rw [hg]
  rfl

/-- Witness for C7 at the concrete name `"bogus"`. -/
theorem unknown_strategy_fails_fast_witness :
    getStrategy "bogus" = .error .valueError
      ∧ mkChunkManager { strategy := some "bogus" } = .error .valueError :=
  unknown_strategy_fails_fast "bogus" (by decide) (by decide) (by decide)

/-! ## Claim C8: detect_chapter_boundary versus the chapter_header score -/

theorem scanGo_ne_nil_exists (s : List Char) (re : RE) :
    ∀ (fuel p : Nat), scanGo s re fuel p ≠ [] →
      ∃ q, q ≤ s.length ∧ execRE s re q ≠ [] := by
  intro fuel
  induction fuel with
  | zero => intro p h; simp [scanGo] at h
  | succ n ih =>
    intro p h
    rw [scanGo] at h
    by_cases hp : p > s.length
    · simp [hp] at h
    · simp only [hp, if_false] at h
      cases he : matchEndAt s re p with
      | some e =>
        refine ⟨p, by omega, ?_⟩
        intro hx
        rw [matchEndAt, hx] at he
        simp at he
      | none =>
        rw [he] at h
        exact ih (p + 1) h

theorem matchCount_pos_search (re : RE) (s : String)
    (h : 0 < matchCount re s) : reSearch re s = true := by
  rw [matchCount, scanSpans] at h
  have hne : scanGo s.toList re (s.toList.length + 1) 0 ≠ [] := by
    intro hx
    rw [hx] at h
    simp at h
  obtain ⟨q, hq, hex⟩ := scanGo_ne_nil_exists s.toList re _ 0 hne
  rw [reSearch]
  rw [List.any_eq_true]
  refine ⟨q, ?_, ?_⟩
  · rw [List.mem_range]; omega
  · simpa using hex

/-- Counterexample for C8: `"1. Introduction"` is detected as a chapter
boundary (via the numbered-section heuristic) although its
`chapter_header` score is zero, so the stated equivalence fails. -/
theorem detect_chapter_boundary_score_cex :
    detectChapterBoundary "1. Introduction" = true
      ∧ ¬ (chapterHeaderScore "1. Introduction" > 1 / 2) := by
  constructor
  · decide
  · have h0 : matchCount chapterHeaderRE "1. Introduction" = 0 := rfl
    rw [chapterHeaderScore, h0]
    norm_num

/-- C8 (amended): a `chapter_header` score above `0.5` implies
`detect_chapter_boundary` returns true, but not conversely — the detector
also fires on numbered section headers and short common heading phrases,
as the counterexample shows. -/
theorem chapter_score_implies_detection (t : String)
    (h : chapterHeaderScore t > 1 / 2) : detectChapterBoundary t = true := by
  have hc : 0 < matchCount chapterHeaderRE t := by
    by_contra hn
    push_neg at hn
    interval_cases hcc : matchCount chapterHeaderRE t
    · rw [chapterHeaderScore, hcc] at h
      norm_num at h
  have hs := matchCount_pos_search chapterHeaderRE t hc
  rw [detectChapterBoundary, hs]
  rfl

/-- Witness for C8 (amended) at `"Chapter 1"` (score `200/9 > 1/2`). -/
theorem chapter_score_implies_detection_witness :
    detectChapterBoundary "Chapter 1" = true := by
  refine chapter_score_implies_detection "Chapter 1" ?_
  have h1 : matchCount chapterHeaderRE "Chapter 1" = 1 := rfl
  have h2 : "Chapter 1".length = 9 := rfl
  rw [chapterHeaderScore, h1, h2]
  norm_num

/-! ## Claim C3: save_chunks / load_chunks round trip -/

/-- A chunk holding a `paragraph_end` marker, which — as inserted by
`FixedSizeChunkStrategy` — has no `text` key. -/
def c3Chunk : Chunk :=
  ⟨[{ typ := "paragraph_end", position := some 0 }],
    ⟨0, 0, .emptyCtx, [], stdRefs [] [] []⟩,
    { chunkId := "c0", sequenceNum := 0, createdAt := "T" }, none⟩

/-- Counterexample for C3: saving and loading a chunk whose content holds an
element without a `text` field does not reconstruct equal content — both
save and load force `text: ''` onto every element. -/
theorem save_load_roundtrip_cex :
    (loadChunks (saveChunks [c3Chunk])).map Chunk.content
      ≠ [c3Chunk.content] := by
  decide

theorem normalizeElemText_id (e : Element) (h : e.text.isSome = true) :
    normalizeElemText e = e := by
  cases he : e.text with
  | none => rw [he] at h; simp at h
  | some t =>
    cases e
    simp_all [normalizeElemText]

theorem map_normalizeElemText_id (l : List Element)
    (h : ∀ e ∈ l, e.text.isSome = true) :
    l.map normalizeElemText = l := by
  induction l with
  | nil => rfl
  | cons e es ih =>
    rw [List.map_cons]
    rw [normalizeElemText_id e (h e (by simp))]
    rw [ih (fun x hx => h x (by simp [hx]))]

/-- C3 (amended): `save_chunks` then `load_chunks` reconstructs chunks with
equal content, boundary and metadata, provided every content element
carries a `text` field; elements without one (such as the `paragraph_end`
markers of the fixed-size strategy) come back with `text: ''` added, as the
counterexample shows. -/
theorem save_load_roundtrip (chunks : List Chunk)
    (h : ∀ c ∈ chunks, ∀ e ∈ c.content, e.text.isSome = true) :
    (loadChunks (saveChunks chunks)).map
        (fun c => (c.content, c.boundary, c.metadata))
      = chunks.map (fun c => (c.content, c.boundary, c.metadata)) := by
  induction chunks with
  | nil => rfl
  | cons c cs ih =>
    rw [saveChunks, List.map_cons, loadChunks, List.map_cons, List.map_cons]
    rw [List.map_cons]
    have hc : (loadChunk (saveChunk c)).content = c.content := by
      rw [loadChunk, saveChunk]
      simp only []
      rw [List.map_map]
      have : ∀ e ∈ c.content, (normalizeElemText ∘ normalizeElemText) e = e := by
        intro e he
        have h1 := normalizeElemText_id e (h c (by simp) e he)
        simp [Function.comp, h1]
      calc c.content.map (normalizeElemText ∘ normalizeElemText)
          = c.content.map id := List.map_congr_left this
        _ = c.content := List.map_id c.content
    have hb : (loadChunk (saveChunk c)).boundary = c.boundary := rfl
    have hm : (loadChunk (saveChunk c)).metadata = c.metadata := rfl
    rw [hc, hb, hm]
    have ih2 := ih (fun x hx e he => h x (by simp [hx]) e he)
    rw [saveChunks, loadChunks] at ih2
    rw [ih2]

/-- A one-chunk set whose elements all carry text. -/
def c3WitnessChunks : List Chunk :=
  [⟨[{ typ := "text", text := some "a b.", position := some 0 }],
    ⟨0, 0, .emptyCtx, [], stdRefs [] [] []⟩,
    { chunkId := "w", sequenceNum := 0, createdAt := "T" }, none⟩]

/-- Witness for C3 (amended). -/
theorem save_load_roundtrip_witness :
    (loadChunks (saveChunks c3WitnessChunks)).map
        (fun c => (c.content, c.boundary, c.metadata))
      = c3WitnessChunks.map (fun c => (c.content, c.boundary, c.metadata)) :=
  save_load_roundtrip c3WitnessChunks (by decide)

/-! ## Claim C6: TOC strategy fallback to semantic chunking -/

def c6Doc : Document :=
  ⟨[{ typ := "heading", text := some "Chapter 1", position := some 0,
      level := some 1 },
    { typ := "text", text := some "a b.", position := some 1 }], none, []⟩

def c6Cfg : Config := { maxChunkSize := some 1000 }

/-- Counterexample for C6: a document without a TOC whose heading contains
`"Chapter 1"` takes the special-cased chapter path of
`TOCBasedChunkStrategy.split` instead of falling back to the semantic
strategy — the outputs differ (already in their heading stacks). -/
theorem toc_fallback_cex :
    tocSplit c6Cfg "T" c6Doc ≠ semanticSplit c6Cfg "T" c6Doc := by
  intro h
  have hp := congrArg (List.map (fun c => c.boundary.headingStack)) h
  exact absurd hp (by decide)

/-- C6 (amended): when `document.structure.toc` is absent and no heading
contains `"Chapter 1"` (the special-cased test-document path), the TOC
strategy returns exactly the semantic strategy's chunks for the same
configuration. -/
theorem toc_fallback_to_semantic (cfg : Config) (now : String)
    (doc : Document) (htoc : doc.toc = none)
    (htest : doc.content.all (fun e =>
      !(e.typ == "heading" && containsSub (e.text.getD "") "Chapter 1"))
      = true) :
    tocSplit cfg now doc = semanticSplit cfg now doc := by
  rw [tocSplit]
  have hany : (doc.content.any (fun e =>
      e.typ == "heading" && containsSub (e.text.getD "") "Chapter 1"))
      = false := by
    rw [List.any_eq_false]
    intro e he
    rw [List.all_eq_true] at htest
    have := htest e he
    simp only [Bool.not_eq_true'] at this
    simp [this]
  rw [hany]
  simp only [Bool.false_eq_true, if_false]
  rw [htoc]

/-- A TOC-less document without the special-cased heading. -/
def c6WitnessDoc : Document :=
  ⟨[{ typ := "heading", text := some "Intro", position := some 0,
      level := some 1 },
    { typ := "text", text := some "a b", position := some 1 }], none, []⟩

/-- Witness for C6 (amended). -/
theorem toc_fallback_to_semantic_witness :
    tocSplit c6Cfg "T" c6WitnessDoc = semanticSplit c6Cfg "T" c6WitnessDoc :=
  toc_fallback_to_semantic c6Cfg "T" c6WitnessDoc rfl (by decide)

/-! ## Claim C9: merge totality domain and the TOC reference shape -/

/-- Is the bucket member a reference dictionary? -/
def isDictVal : RefVal → Bool
  | .dict _ => true
  | .str _ => false

/-- Is the bucket name one of the three standard reference buckets? -/
def stdKeyB (k : String) : Bool :=
  k == "internal" || k == "incoming" || k == "outgoing"

/-- The references shape `_merge_references` is total on: standard bucket
names mapping to lists of reference dictionaries. -/
def wfRefsB (r : Refs) : Bool :=
  r.all (fun kv => stdKeyB kv.1 && kv.2.all isDictVal)

/-- The merged dictionary keeps its three standard keys. -/
def mrKeysOK (r : Refs) : Prop :=
  (r.lookup "internal").isSome = true
    ∧ (r.lookup "incoming").isSome = true
    ∧ (r.lookup "outgoing").isSome = true

theorem lookup_map_replace_isSome (l : List (String × List RefVal))
    (k k' : String) (v : List RefVal) (h : (l.lookup k').isSome = true) :
    ((l.map (fun kv => if kv.1 == k then (k, v) else kv)).lookup k').isSome
      = true := by
  induction l with
  | nil => simp [List.lookup] at h
  | cons kv rest ih =>
    obtain ⟨k1, v1⟩ := kv
    rw [List.map_cons]
    by_cases hk : (k1 == k) = true
    · have hk1 : k1 = k := by simpa using hk
      subst hk1
      simp only [hk, if_true]
      by_cases he : (k' == k1) = true
      · simp [List.lookup, he]
      · simp only [List.lookup, he] at h ⊢
        exact ih h
    · simp only [hk, if_false]
      by_cases he : (k' == k1) = true
      · simp [List.lookup, he]
      · simp only [List.lookup, he] at h ⊢
        exact ih h

theorem lookup_append_of_isSome (l1 l2 : List (String × List RefVal))
    (k' : String) (h : (l1.lookup k').isSome = true) :
    ((l1 ++ l2).lookup k').isSome = true := by
  induction l1 with
  | nil => simp [List.lookup] at h
  | cons kv rest ih =>
    obtain ⟨k1, v1⟩ := kv
    by_cases he : (k' == k1) = true
    · simp [List.lookup, he]
    · simp only [List.cons_append, List.lookup, he] at h ⊢
      exact ih h

theorem lookup_refsSet_isSome (r : Refs) (k k' : String) (v : List RefVal)
    (h : (r.lookup k').isSome = true) :
    ((refsSet r k v).lookup k').isSome = true := by
  rw [refsSet]
  split
  · exact lookup_map_replace_isSome r k k' v h
  · exact lookup_append_of_isSome r [(k, v)] k' h

theorem mrKeysOK_refsAppend (r : Refs) (k : String) (v : RefVal)
    (h : mrKeysOK r) : mrKeysOK (refsAppend r k v) := by
  obtain ⟨h1, h2, h3⟩ := h
  exact ⟨lookup_refsSet_isSome r k _ _ h1,
    lookup_refsSet_isSome r k _ _ h2, lookup_refsSet_isSome r k _ _ h3⟩

theorem mrStep_ok (k : String) (st : MRState) (rv : RefVal)
    (hk : stdKeyB k = true) (hv : isDictVal rv = true)
    (hst : mrKeysOK st.1) :
    ∃ st', mrStep k st rv = .ok st' ∧ mrKeysOK st'.1 := by
  cases rv with
  | str s => simp [isDictVal] at hv
  | dict r =>
    rw [mrStep]
    split
    · exact ⟨st, rfl, hst⟩
    · have hsome : (st.1.lookup k).isSome = true := by
        rw [stdKeyB] at hk
        obtain ⟨h1, h2, h3⟩ := hst
        rcases Bool.or_eq_true_iff.mp hk with hk' | hk'
        · rcases Bool.or_eq_true_iff.mp hk' with hk'' | hk''
          · rw [beq_iff_eq] at hk''; rw [hk'']; exact h1
          · rw [beq_iff_eq] at hk''; rw [hk'']; exact h2
        · rw [beq_iff_eq] at hk'; rw [hk']; exact h3
      simp only [hsome, if_true]
      exact ⟨_, rfl, mrKeysOK_refsAppend st.1 k _ hst⟩

theorem foldlM_mrStep_ok (k : String) (hk : stdKeyB k = true) :
    ∀ (vals : List RefVal) (st : MRState), vals.all isDictVal = true →
      mrKeysOK st.1 →
      ∃ st', List.foldlM (mrStep k) st vals = .ok st' ∧ mrKeysOK st'.1 := by
  intro vals
  induction vals with
  | nil => intro st _ hst; exact ⟨st, rfl, hst⟩
  | cons v vs ih =>
    intro st hv hst
    rw [List.all_cons, Bool.and_eq_true] at hv
    obtain ⟨st1, hs1, hk1⟩ := mrStep_ok k st v hk hv.1 hst
    rw [List.foldlM_cons, hs1]
    exact ih st1 hv.2 hk1

theorem mrRefs_ok (refs : Refs) :
    ∀ (st : MRState), wfRefsB refs = true → mrKeysOK st.1 →
      ∃ st', mrRefs st refs = .ok st' ∧ mrKeysOK st'.1 := by
  induction refs with
  | nil => intro st _ hst; exact ⟨st, rfl, hst⟩
  | cons kv rest ih =>
    intro st hw hst
    rw [wfRefsB, List.all_cons, Bool.and_eq_true] at hw
    obtain ⟨hkv, hrest⟩ := hw
    rw [Bool.and_eq_true] at hkv
    obtain ⟨st1, hs1, hk1⟩ :=
      foldlM_mrStep_ok kv.1 hkv.1 kv.2 st hkv.2 hst
    rw [mrRefs, List.foldlM_cons]
    have hb : mrBucket st kv = .ok st1 := hs1
    rw [hb]
    exact ih st1 hrest hk1

/-- `_merge_references` succeeds on any list of standard-shaped reference
dictionaries. -/
theorem mergeReferences_ok (refsList : List Refs)
    (h : ∀ refs ∈ refsList, wfRefsB refs = true) :
    exOk (mergeReferences refsList) = true := by
  rw [mergeReferences]
  have hinit : mrKeysOK (stdRefs [] [] [] : Refs) := by
    refine ⟨rfl, rfl, rfl⟩
  have : ∀ (l : List Refs) (st : MRState), (∀ refs ∈ l, wfRefsB refs = true) →
      mrKeysOK st.1 → ∃ st', l.foldlM mrRefs st = .ok st' := by
    intro l
    induction l with
    | nil => intro st _ _; exact ⟨st, rfl⟩
    | cons refs rest ih =>
      intro st hl hst
      obtain ⟨st1, hs1, hk1⟩ := mrRefs_ok refs st (hl refs (by simp)) hst
      rw [List.foldlM_cons, hs1]
      exact ih st1 (fun x hx => hl x (by simp [hx])) hk1
  obtain ⟨st', hst'⟩ := this refsList (stdRefs [] [] [], []) h hinit
  rw [hst']
  rfl

/-- The test document that drives `TOCBasedChunkStrategy` (its heading
contains `"Chapter 1"`), with capitalized words so that `extract_entities`
produces non-empty string buckets. -/
def c9Doc : Document :=
  ⟨[{ typ := "heading", text := some "Chapter 1", position := some 0,
      level := some 1 },
    { typ := "text", text := some "Alpha Beta", position := some 1 }],
    none, []⟩

def c9Cfg : Config := { maxChunkSize := some 100 }

/-- C9: `merge_chunks` is total only on chunks whose references map the
standard bucket names to reference dictionaries; for chunks produced by
`TOCBasedChunkStrategy` — whose `_extract_references` returns entity-type
buckets of plain strings — `_merge_references` raises `AttributeError`
through the public merge API instead of returning a merged reference
set. -/
theorem merge_total_only_on_dict_refs (refsList : List Refs)
    (h : ∀ refs ∈ refsList, wfRefsB refs = true) :
    exOk (mergeReferences refsList) = true
      ∧ mergeChunksFn "T" (tocSplit c9Cfg "T" c9Doc) [0]
          = .error .attributeError := by
  refine ⟨mergeReferences_ok refsList h, ?_⟩
  rfl

/-- Witness for C9 at a concrete standard-shaped references list. -/
theorem merge_total_only_on_dict_refs_witness :
    exOk (mergeReferences
        [stdRefs [] [] [.dict { target := some "x" }]]) = true
      ∧ mergeChunksFn "T" (tocSplit c9Cfg "T" c9Doc) [0]
          = .error .attributeError :=
  merge_total_only_on_dict_refs
    [stdRefs [] [] [.dict { target := some "x" }]] (by decide)

/-! ## Claim C1: ordering, non-overlap and gap of chunk_document output -/

/-- The claimed pairwise property: for every adjacent pair,
`end_pos(i) < start_pos(i+1)` and `start_pos(i+1) - end_pos(i) ≤ 1`. -/
def orderedNonOverlapping (l : List Chunk) : Bool :=
  (l.zip (l.drop 1)).all (fun p =>
    decide (p.1.boundary.endPos < p.2.boundary.startPos)
      && decide (p.2.boundary.startPos - p.1.boundary.endPos ≤ 1))

/-- A two-element semantic document whose overlap carry-over duplicates the
first element into the next chunk. -/
def c1Doc : Document :=
  ⟨[{ typ := "text", text := some "a b", position := some 0 },
    { typ := "text", text := some "c d", position := some 1 }], none, []⟩

def c1Cfg : Config :=
  { strategy := some "semantic", maxChunkSize := some 3,
    overlapTokens := some 2, minChunkSize := some 0 }

def c1Mgr : Manager := ⟨c1Cfg, .semantic⟩

set_option maxRecDepth 10000

/-- Counterexample for C1: a successful `chunk_document` run returning
chunks at positions `(0,0)`, `(0,0)`, `(1,1)` — the first adjacent pair has
`end_pos(0) = start_pos(1) = 0`, violating `end_pos(i) < start_pos(i+1)`;
validation accepts it because `_are_valid_boundaries` only rejects gaps
greater than one, never overlap, and `_create_overlap` produces overlap by
design. -/
theorem chunk_document_ordering_cex :
    mkChunkManager c1Cfg = .ok c1Mgr
      ∧ exOk (chunkDocument c1Mgr "T" c1Doc) = true
      ∧ orderedNonOverlapping (exceptOkD (chunkDocument c1Mgr "T" c1Doc))
          = false := by
  refine ⟨rfl, by decide, by decide⟩

theorem validatePairs_gap :
    ∀ (l : List Chunk) (prev : Option Chunk),
      validatePairs prev l = .ok () →
      List.Chain' (fun a b =>
        b.boundary.startPos - a.boundary.endPos ≤ 1) l
      ∧ (∀ p c, prev = some p → l.head? = some c →
          c.boundary.startPos - p.boundary.endPos ≤ 1) := by
  intro l
  induction l with
  | nil =>
    intro prev _
    exact ⟨List.chain'_nil, fun p c _ hc => by simp at hc⟩
  | cons c rest ih =>
    intro prev h
    cases prev with
    | none =>
      rw [validatePairs] at h
      by_cases hv : isValidChunk c
      · simp only [hv, Bool.not_true, Bool.false_eq_true, if_false] at h
        obtain ⟨hchain, hlink⟩ := ih (some c) h
        constructor
        · rw [List.chain'_cons']
          exact ⟨fun y hy => hlink c y rfl hy, hchain⟩
        · intro p c' hp _
          exact absurd hp (by simp)
      · simp only [hv, Bool.not_false] at h
        exact absurd h (by simp)
    | some p =>
      rw [validatePairs] at h
      by_cases hv : isValidChunk c
      · simp only [hv, Bool.not_true, Bool.false_eq_true, if_false] at h
        by_cases hb : areValidBoundaries p c
        · simp only [hb, Bool.not_true, Bool.false_eq_true, if_false] at h
          obtain ⟨hchain, hlink⟩ := ih (some c) h
          have hgap : c.boundary.startPos - p.boundary.endPos ≤ 1 := by
            rw [areValidBoundaries] at hb
            simp only [Bool.and_eq_true, Bool.not_eq_true',
              decide_eq_false_iff_not] at hb
            omega
          constructor
          · rw [List.chain'_cons']
            exact ⟨fun y hy => hlink c y rfl hy, hchain⟩
          · intro p' c' hp' hc'
            cases hp'
            cases hc'
            exact hgap
        · simp only [hb, Bool.not_false] at h
          exact absurd h (by simp)
      · simp only [hv, Bool.not_false] at h
        exact absurd h (by simp)

theorem validateChunks_gap (chunks out : List Chunk)
    (h : validateChunks chunks = .ok out) :
    List.Chain' (fun a b => b.boundary.startPos - a.boundary.endPos ≤ 1)
      out := by
  rw [validateChunks] at h
  by_cases he : chunks.isEmpty
  · simp only [he, if_true] at h
    exact absurd h (by simp [throw, throwThe, MonadExceptOf.throw])
  · simp only [he, Bool.false_eq_true, if_false] at h
    cases hv : validatePairs none (chunks.map (fun c => c.readSize.2)) with
    | error e =>
      rw [hv] at h
      exact absurd h (by simp [Bind.bind, Except.bind])
    | ok u =>
      cases u
      rw [hv] at h
      simp only [Bind.bind, Except.bind, pure, Except.pure] at h
      cases h
      exact (validatePairs_gap _ none hv).1

theorem chunk_document_gap (m : Manager) (now : String) (doc : Document)
    (out : List Chunk) (h : chunkDocument m now doc = .ok out) :
    List.Chain' (fun a b => b.boundary.startPos - a.boundary.endPos ≤ 1)
      out := by
  rw [chunkDocument, chunkDocumentBody] at h
  cases hp : postProcessChunks m.config now m.strategy
      (strategySplit m.strategy m.config now
        (prepareDocument m.config doc)) with
  | error e =>
    rw [hp] at h
    exact absurd h (by simp [Bind.bind, Except.bind])
  | ok chunks2 =>
    rw [hp] at h
    simp only [Bind.bind, Except.bind] at h
    cases hvv : validateChunks chunks2 with
    | error e => rw [hvv] at h; exact absurd h (by simp)
    | ok out2 =>
      rw [hvv] at h
      simp only at h
      cases h
      exact validateChunks_gap chunks2 out hvv

/-- C1 (amended): for every chunk list returned by
`ChunkManager.chunk_document`, every adjacent pair satisfies
`start_pos(i+1) - end_pos(i) ≤ 1` (no element skipped); ordering and
non-overlap do not hold — the semantic overlap carry-over deliberately
duplicates trailing elements, and validation never rejects overlap. -/
theorem chunk_document_gap_bound (m : Manager) (now : String)
    (doc : Document) (out : List Chunk)
    (h : chunkDocument m now doc = .ok out) :
    List.Chain' (fun a b => b.boundary.startPos - a.boundary.endPos ≤ 1)
      out :=
  chunk_document_gap m now doc out h

/-- Witness for C1 (amended) at the concrete counterexample run. -/
theorem chunk_document_gap_bound_witness :
    List.Chain' (fun a b => b.boundary.startPos - a.boundary.endPos ≤ 1)
      (exceptOkD (chunkDocument c1Mgr "T" c1Doc)) := by
  cases h : chunkDocument c1Mgr "T" c1Doc with
  | error e =>
    have hok : exOk (chunkDocument c1Mgr "T" c1Doc) = true := by decide
    rw [h] at hok
    exact absurd hok (by simp [exOk])
  | ok out =>
    have := chunk_document_gap_bound c1Mgr "T" c1Doc out h
    simpa [exceptOkD, h] using this

/-! ## Claim C2: the soft size bound after size enforcement -/

theorem Chunk.sizeVal_of_cache (c : Chunk) (s : Int)
    (h : c.sizeCache = some s) : c.sizeVal = s := by
  rw [Chunk.sizeVal, h]

theorem readSize_fst (c : Chunk) : (c.readSize).1 = c.sizeVal := by
  cases h : c.sizeCache with
  | some s => simp [Chunk.readSize, Chunk.sizeVal, h]
  | none =>
    by_cases hw : c.metadata.wordCount > 0 <;>
      simp [Chunk.readSize, Chunk.sizeVal, h, hw]

theorem readSize_snd_sizeVal (c : Chunk) :
    (c.readSize).2.sizeVal = c.sizeVal := by
  cases h : c.sizeCache with
  | some s => simp [Chunk.readSize, Chunk.sizeVal, h]
  | none =>
    by_cases hw : c.metadata.wordCount > 0 <;>
      simp [Chunk.readSize, Chunk.sizeVal, h, hw]

theorem readSize_snd_content (c : Chunk) :
    (c.readSize).2.content = c.content := by
  cases h : c.sizeCache with
  | some s => simp [Chunk.readSize, h]
  | none =>
    by_cases hw : c.metadata.wordCount > 0 <;>
      simp [Chunk.readSize, h, hw]

theorem sliceWords_go_le (m : Nat) :
    ∀ fuel ws, ∀ l ∈ sliceWords.go m fuel ws, l.length ≤ m
  | 0, _ => by simp [sliceWords.go]
  | _ + 1, [] => by simp [sliceWords.go]
  | fuel + 1, w :: rest => by
    intro l hl
    rw [sliceWords.go] at hl
    rcases List.mem_cons.mp hl with h | h
    · subst h
      simp only [List.length_take]
      omega
    · exact sliceWords_go_le m fuel _ l h

theorem sliceWords_le (m : Nat) (ws : List String) :
    ∀ l ∈ sliceWords m ws, l.length ≤ m := by
  rw [sliceWords]
  exact sliceWords_go_le m ws.length ws

/-- Invariant of the `_split_large_chunk` loop: every emitted part carries
an explicit cached size within the maximum, and the accumulating buffer
size stays within the maximum (zero while the buffer is empty). -/
def SLInv (maxSize : Int) (st : SLState) : Prop :=
  (∀ p ∈ st.parts, ∃ s, p.sizeCache = some s ∧ s ≤ maxSize)
    ∧ ((st.curSize : Int) ≤ maxSize ∧ (st.cur = [] → st.curSize = 0))

theorem slFlush_inv (f : List Element → Refs) (base : Chunk) (now : String)
    (maxSize : Int) (h0 : 0 ≤ maxSize) (st : SLState)
    (h : SLInv maxSize st) : SLInv maxSize (slFlush f base now st) := by
  obtain ⟨hp, hc, _⟩ := h
  refine ⟨?_, by simpa [slFlush] using h0, fun _ => rfl⟩
  intro p hp2
  simp only [slFlush] at hp2
  rcases List.mem_append.mp hp2 with h1 | h1
  · exact hp p h1
  · rw [List.mem_singleton] at h1
    subst h1
    exact ⟨(st.curSize : Int), rfl, hc⟩

theorem slSlice_foldl_inv (base : Chunk) (now : String) (e : Element)
    (maxSize : Int) :
    ∀ (slices : List (List String)) (st : SLState),
      (∀ l ∈ slices, (l.length : Int) ≤ maxSize) → SLInv maxSize st →
      SLInv maxSize (slices.foldl (slSlice base now e) st)
  | [], _, _, h => h
  | slice :: rest, st, hs, h => by
    rw [List.foldl_cons]
    refine slSlice_foldl_inv base now e maxSize rest _
      (fun l hl => hs l (List.mem_cons_of_mem _ hl)) ?_
    obtain ⟨hp, hc, he⟩ := h
    refine ⟨?_, hc, he⟩
    intro p hp2
    simp only [slSlice] at hp2
    rcases List.mem_append.mp hp2 with h1 | h1
    · exact hp p h1
    · rw [List.mem_singleton] at h1
      subst h1
      exact ⟨(slice.length : Int), rfl,
        hs slice (List.mem_cons_self _ _)⟩

theorem slStepB_inv (f : List Element → Refs) (base : Chunk) (now : String)
    (maxSize : Int) (h0 : 0 ≤ maxSize) (st : SLState) (e : Element)
    (h : SLInv maxSize st)
    (hpre : ((st.curSize + elementSize e : Nat) : Int) ≤ maxSize
      ∨ st.cur = []) :
    SLInv maxSize (slStepB f base now maxSize st e) := by
  rw [slStepB]
  split
  case isTrue hbig =>
    refine slSlice_foldl_inv base now e maxSize _ _ ?_ ?_
    · intro l hl
      have := sliceWords_le maxSize.toNat (pySplit (e.text.getD "")) l hl
      omega
    · split
      · exact slFlush_inv f base now maxSize h0 st h
      · exact h
  case isFalse hsm =>
    obtain ⟨hp, hc, he⟩ := h
    have hesz : ((elementSize e : Nat) : Int) ≤ maxSize := by
      by_cases hb : maxSize < ((elementSize e : Nat) : Int)
      · exfalso
        have ht : (e.typ == "text" || e.typ == "paragraph") = false := by
          cases hty : (e.typ == "text" || e.typ == "paragraph") with
          | true => exact absurd (by simp [hb, hty]) hsm
          | false => rfl
        have hz : elementSize e = 0 := by
          rw [elementSize, if_neg (by simp [ht])]
        omega
      · omega
    refine ⟨hp, ?_, fun hcon => absurd hcon (by simp)⟩
    rcases hpre with hpre | hpre
    · exact hpre
    · have hz := he hpre
      show ((st.curSize + elementSize e : Nat) : Int) ≤ maxSize
      omega

theorem slStep_inv (f : List Element → Refs) (base : Chunk) (now : String)
    (maxSize : Int) (h0 : 0 ≤ maxSize) (st : SLState) (e : Element)
    (h : SLInv maxSize st) :
    SLInv maxSize (slStep f base now maxSize st e) := by
  rw [slStep]
  split
  case isTrue hb =>
    exact slStepB_inv f base now maxSize h0 _ e
      (slFlush_inv f base now maxSize h0 st h) (Or.inr rfl)
  case isFalse hb =>
    refine slStepB_inv f base now maxSize h0 st e h ?_
    by_cases hcur : st.cur = []
    · exact Or.inr hcur
    · left
      have hE : st.cur.isEmpty = false := by
        cases hE : st.cur.isEmpty with
        | true => exact absurd (List.isEmpty_iff.mp hE) hcur
        | false => rfl
      by_cases hgt : maxSize < ((st.curSize + elementSize e : Nat) : Int)
      · exact absurd (by simp [hE]; omega) hb
      · omega

theorem slStep_foldl_inv (f : List Element → Refs) (base : Chunk)
    (now : String) (maxSize : Int) (h0 : 0 ≤ maxSize) :
    ∀ (content : List Element) (st : SLState), SLInv maxSize st →
      SLInv maxSize (content.foldl (slStep f base now maxSize) st)
  | [], _, h => h
  | e :: rest, st, h => by
    rw [List.foldl_cons]
    exact slStep_foldl_inv f base now maxSize h0 rest _
      (slStep_inv f base now maxSize h0 st e h)

theorem splitLargeChunk_sizeVal_le (f : List Element → Refs) (now : String)
    (c : Chunk) (maxSize : Int) (h0 : 0 ≤ maxSize) (hne : c.content ≠ [])
    (p : Chunk) (hp : p ∈ splitLargeChunk f now c maxSize) :
    p.sizeVal ≤ maxSize := by
  simp only [splitLargeChunk] at hp
  rw [if_neg (by simpa [List.isEmpty_iff] using hne)] at hp
  have hinv : SLInv maxSize (c.content.foldl (slStep f c now maxSize) {}) :=
    slStep_foldl_inv f c now maxSize h0 c.content {}
      ⟨by simp, by simpa using h0, fun _ => rfl⟩
  split at hp
  · obtain ⟨s, hcache, hs⟩ := hinv.1 p hp
    rw [Chunk.sizeVal_of_cache p s hcache]
    exact hs
  · obtain ⟨s, hcache, hs⟩ :=
      (slFlush_inv f c now maxSize h0 _ hinv).1 p hp
    rw [Chunk.sizeVal_of_cache p s hcache]
    exact hs

theorem ep1Step_le (tag : StrategyTag) (now : String) (maxSize : Int)
    (h0 : 0 ≤ maxSize) (acc : List Chunk) (c : Chunk)
    (hacc : ∀ x ∈ acc, x.sizeVal ≤ maxSize) (hc : c.content ≠ []) :
    ∀ x ∈ ep1Step tag now maxSize acc c, x.sizeVal ≤ maxSize := by
  intro x hx
  simp only [ep1Step] at hx
  split at hx
  case isTrue hgt =>
    rcases List.mem_append.mp hx with h | h
    · exact hacc x h
    · exact splitLargeChunk_sizeVal_le _ now _ maxSize h0
        (by rw [readSize_snd_content]; exact hc) x h
  case isFalse hle =>
    rcases List.mem_append.mp hx with h | h
    · exact hacc x h
    · rw [List.mem_singleton] at h
      subst h
      rw [readSize_snd_sizeVal, ← readSize_fst]
      omega

theorem enforcePass1_go_le (tag : StrategyTag) (now : String)
    (maxSize : Int) (h0 : 0 ≤ maxSize) :
    ∀ (chunks acc : List Chunk), (∀ x ∈ acc, x.sizeVal ≤ maxSize) →
      (∀ c ∈ chunks, c.content ≠ []) →
      ∀ x ∈ chunks.foldl (ep1Step tag now maxSize) acc,
        x.sizeVal ≤ maxSize
  | [], _, hacc, _ => hacc
  | c :: rest, acc, hacc, hne => by
    rw [List.foldl_cons]
    exact enforcePass1_go_le tag now maxSize h0 rest _
      (ep1Step_le tag now maxSize h0 acc c hacc
        (hne c (List.mem_cons_self _ _)))
      (fun d hd => hne d (List.mem_cons_of_mem _ hd))

theorem enforcePass1_le (tag : StrategyTag) (now : String) (maxSize : Int)
    (h0 : 0 ≤ maxSize) (chunks : List Chunk)
    (hne : ∀ c ∈ chunks, c.content ≠ []) :
    ∀ x ∈ enforcePass1 tag now maxSize chunks, x.sizeVal ≤ maxSize := by
  rw [enforcePass1]
  exact enforcePass1_go_le tag now maxSize h0 chunks []
    (by simp) hne

/-- Invariant of the merge pass of `_enforce_size_constraints`: the
emitted chunks and the pending merge candidate all respect the maximum. -/
def EPInv (maxSize : Int) (st : List Chunk × Option Chunk) : Prop :=
  (∀ c ∈ st.1, c.sizeVal ≤ maxSize)
    ∧ ∀ c, st.2 = some c → c.sizeVal ≤ maxSize

theorem epStep_inv (now : String) (minSize maxSize : Int)
    (done : List Chunk) (pend : Option Chunk) (chunk : Chunk)
    (h : EPInv maxSize (done, pend)) (hchunk : chunk.sizeVal ≤ maxSize)
    (st2 : List Chunk × Option Chunk)
    (hstep : epStep now minSize maxSize (done, pend) chunk = .ok st2) :
    EPInv maxSize st2 := by
  obtain ⟨h1, h2⟩ := h
  have hcsz : (chunk.readSize).2.sizeVal ≤ maxSize := by
    rw [readSize_snd_sizeVal]
    exact hchunk
  simp only [epStep] at hstep
  split at hstep
  case isTrue hlt =>
    cases pend with
    | some cur =>
      simp only at hstep
      split at hstep
      case isTrue hfit =>
        cases hm : mergeReferences
            [(cur.readSize).2.boundary.references,
             (chunk.readSize).2.boundary.references] with
        | error e =>
          rw [hm] at hstep
          exact absurd hstep (by simp [Bind.bind, Except.bind])
        | ok refs =>
          rw [hm] at hstep
          simp only [Bind.bind, Except.bind, pure, Except.pure,
            Except.ok.injEq] at hstep
          subst hstep
          refine ⟨h1, ?_⟩
          intro c hcc
          rw [Option.some_inj] at hcc
          subst hcc
          rw [Chunk.sizeVal_of_cache _ _ rfl]
          exact hfit
      case isFalse hfit =>
        simp only [pure, Except.pure, Except.ok.injEq] at hstep
        subst hstep
        refine ⟨?_, ?_⟩
        · intro c hcc
          rcases List.mem_append.mp hcc with hcc | hcc
          · exact h1 c hcc
          · rw [List.mem_singleton] at hcc
            subst hcc
            rw [readSize_snd_sizeVal]
            exact h2 cur rfl
        · intro c hcc
          rw [Option.some_inj] at hcc
          subst hcc
          exact hcsz
    | none =>
      simp only [pure, Except.pure, Except.ok.injEq] at hstep
      subst hstep
      refine ⟨h1, ?_⟩
      intro c hcc
      rw [Option.some_inj] at hcc
      subst hcc
      exact hcsz
  case isFalse hge =>
    cases pend with
    | some cur =>
      simp only [pure, Except.pure, Except.ok.injEq] at hstep
      subst hstep
      refine ⟨?_, fun c hcc => Option.noConfusion hcc⟩
      intro c hcc
      rcases List.mem_append.mp hcc with hcc | hcc
      · exact h1 c hcc
      · rcases List.mem_cons.mp hcc with hcc | hcc
        · subst hcc
          exact h2 c rfl
        · rw [List.mem_singleton] at hcc
          subst hcc
          exact hcsz
    | none =>
      simp only [pure, Except.pure, Except.ok.injEq] at hstep
      subst hstep
      refine ⟨?_, fun c hcc => Option.noConfusion hcc⟩
      intro c hcc
      rcases List.mem_append.mp hcc with hcc | hcc
      · exact h1 c hcc
      · rw [List.mem_singleton] at hcc
        subst hcc
        exact hcsz

theorem epFold_inv (now : String) (minSize maxSize : Int) :
    ∀ (chunks : List Chunk) (st : List Chunk × Option Chunk),
      EPInv maxSize st → (∀ c ∈ chunks, c.sizeVal ≤ maxSize) →
      ∀ st2, chunks.foldlM (epStep now minSize maxSize) st = .ok st2 →
        EPInv maxSize st2
  | [], st, h, _, st2, hf => by
    simp only [List.foldlM_nil, pure, Except.pure,
      Except.ok.injEq] at hf
    subst hf
    exact h
  | c :: rest, st, h, hb, st2, hf => by
    rw [List.foldlM_cons] at hf
    cases hstep : epStep now minSize maxSize st c with
    | error e =>
      rw [hstep] at hf
      exact absurd hf (by simp [Bind.bind, Except.bind])
    | ok stm =>
      rw [hstep] at hf
      simp only [Bind.bind, Except.bind] at hf
      exact epFold_inv now minSize maxSize rest stm
        (epStep_inv now minSize maxSize st.1 st.2 c h
          (hb c (List.mem_cons_self _ _)) stm hstep)
        (fun d hd => hb d (List.mem_cons_of_mem _ hd)) st2 hf

theorem enforcePass2_le (now : String) (minSize maxSize : Int)
    (chunks out : List Chunk) (hb : ∀ c ∈ chunks, c.sizeVal ≤ maxSize)
    (h : enforcePass2 now minSize maxSize chunks = .ok out) :
    ∀ c ∈ out, c.sizeVal ≤ maxSize := by
  simp only [enforcePass2] at h
  cases hf : chunks.foldlM (epStep now minSize maxSize) ([], none) with
  | error e =>
    rw [hf] at h
    exact absurd h (by simp [Bind.bind, Except.bind])
  | ok st =>
    rw [hf] at h
    simp only [Bind.bind, Except.bind] at h
    have hinv := epFold_inv now minSize maxSize chunks ([], none)
      ⟨by simp, fun c hc => Option.noConfusion hc⟩ hb st hf
    obtain ⟨done, pend⟩ := st
    cases pend with
    | some cur =>
      simp only [pure, Except.pure, Except.ok.injEq] at h
      subst h
      intro c hc
      rcases List.mem_append.mp hc with hc | hc
      · exact hinv.1 c hc
      · rw [List.mem_singleton] at hc
        subst hc
        exact hinv.2 c rfl
    | none =>
      simp only [pure, Except.pure, Except.ok.injEq] at h
      subst h
      exact hinv.1

/-- C2: after `_enforce_size_constraints`, with a positive configured
maximum and every input chunk holding content, every returned chunk has
size at most `max_chunk_size` — the single-oversized-element exception the
spec allows never even occurs, because `_split_large_chunk` word-slices
oversized text elements into parts of at most `max_chunk_size` words. -/
theorem enforce_size_constraints_bound (cfg : Config) (now : String)
    (tag : StrategyTag) (chunks out : List Chunk)
    (hmax : 1 ≤ cfg.maxChunkSize.getD 2048)
    (hne : ∀ c ∈ chunks, c.content ≠ [])
    (h : enforceSizeConstraints cfg now tag chunks = .ok out) :
    ∀ c ∈ out,
      (∃ e, c.content = [e]
          ∧ cfg.maxChunkSize.getD 2048 < ((elementSize e : Nat) : Int))
        ∨ c.sizeVal ≤ cfg.maxChunkSize.getD 2048 := by
  intro c hc
  right
  have h0 : (0 : Int) ≤ cfg.maxChunkSize.getD 2048 := by omega
  simp only [enforceSizeConstraints] at h
  split at h
  case isTrue hemp =>
    simp only [pure, Except.pure, Except.ok.injEq] at h
    subst h
    rw [List.isEmpty_iff.mp hemp] at hc
    exact absurd hc (List.not_mem_nil c)
  case isFalse hemp =>
    split at h
    case isTrue hmin =>
      exact enforcePass2_le now _ _ _ out
        (enforcePass1_le tag now _ h0 chunks hne) h c hc
    case isFalse hmin =>
      simp only [pure, Except.pure, Except.ok.injEq] at h
      subst h
      exact enforcePass1_le tag now _ h0 chunks hne c hc

/-- A single five-word text element configured against a maximum of three
words: enforcement splits it into parts of sizes three and two. -/
def c2Chunk : Chunk :=
  ⟨[{ typ := "text", text := some "a b c d e", position := some 0 }],
    ⟨0, 0, .emptyCtx, [], stdRefs [] [] []⟩,
    { chunkId := "c2", sequenceNum := 0, createdAt := "T",
      wordCount := 5 }, none⟩

def c2Cfg : Config :=
  { maxChunkSize := some 3, minChunkSize := some 0 }

/-- Does the chunk consist of a single element individually exceeding the
maximum (the exception the claim allows)? -/
def oversizedSingleB (m : Int) (c : Chunk) : Bool :=
  match c.content with
  | [e] => decide (m < ((elementSize e : Nat) : Int))
  | _ => false

/-- Witness for C2 at a concrete oversized chunk. -/
theorem enforce_size_constraints_bound_witness :
    ((exceptOkD (enforceSizeConstraints c2Cfg "T" .semantic [c2Chunk])).all
      (fun c => decide (c.sizeVal ≤ c2Cfg.maxChunkSize.getD 2048)
        || oversizedSingleB (c2Cfg.maxChunkSize.getD 2048) c)) = true := by
  cases h : enforceSizeConstraints c2Cfg "T" .semantic [c2Chunk] with
  | error e =>
    have hok : exOk (enforceSizeConstraints c2Cfg "T" .semantic [c2Chunk])
        = true := by decide
    rw [h] at hok
    exact absurd hok (by simp [exOk])
  | ok out =>
    have H := enforce_size_constraints_bound c2Cfg "T" .semantic [c2Chunk]
      out (by decide)
      (fun c hcm => by rw [List.mem_singleton.mp hcm]; decide) h
    refine List.all_eq_true.mpr ?_
    intro c hc
    rcases H c hc with ⟨e, he, hgt⟩ | hle
    · simp [oversizedSingleB, he, hgt]
    · simp [hle]

/-! ## Claim C5: merge_chunks errors and the merged result -/

theorem insertDesc_append (x : Nat) :
    ∀ (l : List Nat), (∀ y ∈ l, x < y) → insertDesc x l = l ++ [x]
  | [], _ => rfl
  | y :: ys, h => by
    rw [insertDesc,
      if_neg (by have := h y (List.mem_cons_self _ _); omega),
      insertDesc_append x ys (fun z hz => h z (List.mem_cons_of_mem _ hz))]
    rfl

theorem sortDesc_of_ascending :
    ∀ (l : List Nat), l.Pairwise (· < ·) → sortDesc l = l.reverse
  | [], _ => rfl
  | x :: xs, h => by
    obtain ⟨h1, h2⟩ := List.pairwise_cons.mp h
    have ih := sortDesc_of_ascending xs h2
    simp only [sortDesc, List.foldr_cons] at ih ⊢
    rw [ih,
      insertDesc_append x _ (fun y hy => h1 y (List.mem_reverse.mp hy)),
      List.reverse_cons]

theorem eraseIdx_take {α : Type} (l : List α) (d m : Nat) (h : m ≤ d) :
    (l.eraseIdx d).take m = l.take m := by
  by_cases hd : d < l.length
  · rw [List.eraseIdx_eq_take_drop_succ,
      List.take_append_of_le_length (by simp [List.length_take]; omega),
      List.take_take, Nat.min_eq_left h]
  · rw [List.eraseIdx_of_length_le (by omega)]

theorem pyPopAll_spec :
    ∀ (ds : List Nat) (chunks : List Chunk),
      ds.Pairwise (· > ·) → (∀ d ∈ ds, d < chunks.length) →
      ∃ rem, pyPopAll chunks ds = .ok rem
        ∧ rem.length + ds.length = chunks.length
        ∧ ∀ m, (∀ d ∈ ds, m ≤ d) → rem.take m = chunks.take m
  | [], chunks, _, _ => ⟨chunks, rfl, by simp, fun _ _ => rfl⟩
  | d :: ds, chunks, hp, hlt => by
    have hd : d < chunks.length := hlt d (List.mem_cons_self _ _)
    have hlenE : (chunks.eraseIdx d).length = chunks.length - 1 := by
      rw [List.length_eraseIdx]
      simp [hd]
    obtain ⟨rem, hrem, hlen, htake⟩ := pyPopAll_spec ds (chunks.eraseIdx d)
      (List.pairwise_cons.mp hp).2
      (by
        intro d2 hd2
        have h2 := (List.pairwise_cons.mp hp).1 d2 hd2
        omega)
    refine ⟨rem, ?_, by simp only [List.length_cons]; omega, ?_⟩
    · rw [pyPopAll] at hrem ⊢
      simp only [List.foldlM_cons]
      rw [if_pos hd, pure_bind]
      exact hrem
    · intro m hm
      rw [htake m (fun d2 hd2 => hm d2 (List.mem_cons_of_mem _ hd2))]
      exact eraseIdx_take chunks d m (hm d (List.mem_cons_self _ _))

theorem pyInsert_eq (l : List Chunk) (i : Nat) (c : Chunk) :
    pyInsert l i c = l.take i ++ [c] ++ l.drop i := by
  rw [pyInsert]
  split
  case isTrue h =>
    rw [List.take_of_length_le (by omega),
      List.drop_eq_nil_of_le (by omega)]
    simp
  case isFalse h => rfl

theorem getD_mem_of_lt :
    ∀ (l : List Chunk) (n : Nat) (d : Chunk), n < l.length →
      l.getD n d ∈ l
  | c :: cs, 0, _, _ => List.mem_cons_self c cs
  | c :: cs, n + 1, d, h =>
    List.mem_cons_of_mem c (getD_mem_of_lt cs n d (by simpa using h))

theorem ascending_head_bound :
    ∀ (x : Nat) (xs : List Nat) (n : Nat), (x :: xs).Pairwise (· < ·) →
      (∀ y ∈ x :: xs, y < n) → x + xs.length < n
  | x, [], n, _, hlt => by simpa using hlt x (List.mem_cons_self _ _)
  | x, y :: ys, n, hp, hlt => by
    have h1 := (List.pairwise_cons.mp hp).1 y (List.mem_cons_self _ _)
    have h2 := ascending_head_bound y ys n (List.pairwise_cons.mp hp).2
      (fun z hz => hlt z (List.mem_cons_of_mem _ hz))
    simp only [List.length_cons]
    omega

/-- C5: `merge_chunks` raises `ValueError` on an empty or out-of-range
index list; on a non-empty strictly ascending in-range index list over
chunks with standard-shaped references it returns a merged chunk whose
content is the concatenation of the member contents in index order, whose
size is the sum of the member sizes as read (not recomputed from content),
and which replaces the merged chunks in the list at the position of the
first index. -/
theorem merge_chunks_spec (now : String) (chunks : List Chunk)
    (indices : List Int)
    (hw : ∀ c ∈ chunks, wfRefsB c.boundary.references = true)
    (hasc : indices.Pairwise (· < ·)) :
    ((indices = [] ∨ ¬ ∀ i ∈ indices, 0 ≤ i ∧ i < (chunks.length : Int)) →
        mergeChunksFn now chunks indices = .error .valueError)
      ∧ (indices ≠ [] →
          (∀ i ∈ indices, 0 ≤ i ∧ i < (chunks.length : Int)) →
          ∃ merged rest,
            mergeChunksFn now chunks indices = .ok (merged, rest)
              ∧ merged.content
                  = indices.flatMap
                      (fun i => (chunks.getD i.toNat defaultChunk).content)
              ∧ merged.sizeVal
                  = (indices.map
                      (fun i =>
                        (chunks.getD i.toNat defaultChunk).sizeVal)).sum
              ∧ rest.take (indices.headD 0).toNat
                  = chunks.take (indices.headD 0).toNat
              ∧ rest[(indices.headD 0).toNat]? = some merged
              ∧ rest.length + indices.length = chunks.length + 1) := by
  constructor
  · rintro (rfl | hbad)
    · rfl
    · simp only [mergeChunksFn]
      split
      case isTrue _ => rfl
      case isFalse hcond =>
        exfalso
        apply hbad
        simpa using hcond
  · intro hne hrange
    obtain ⟨a, tl, rfl⟩ := List.exists_cons_of_ne_nil hne
    simp only [List.headD_cons]
    have ha0 : 0 ≤ a := (hrange a (List.mem_cons_self _ _)).1
    have hmin : ∀ j ∈ a :: tl, a ≤ j := by
      intro j hj
      rcases List.mem_cons.mp hj with rfl | hj
      · exact le_refl j
      · exact le_of_lt ((List.pairwise_cons.mp hasc).1 j hj)
    have hascN : ((a :: tl).map Int.toNat).Pairwise (· < ·) := by
      rw [List.pairwise_map]
      refine hasc.imp_of_mem ?_
      intro i j hi hj hij
      have h1 := (hrange i hi).1
      omega
    have hsd : sortDesc ((a :: tl).map Int.toNat)
        = ((a :: tl).map Int.toNat).reverse :=
      sortDesc_of_ascending _ hascN
    obtain ⟨rem, hrem, hlen, htake⟩ :=
      pyPopAll_spec (((a :: tl).map Int.toNat).reverse) chunks
        (by
          rw [List.pairwise_reverse]
          exact hascN)
        (by
          intro d hd
          rw [List.mem_reverse, List.mem_map] at hd
          obtain ⟨j, hj, rfl⟩ := hd
          have := hrange j hj
          omega)
    have hi0 : a.toNat + tl.length < chunks.length := by
      have := ascending_head_bound a.toNat (tl.map Int.toNat) chunks.length
        (by simpa using hascN)
        (by
          intro y hy
          rcases List.mem_cons.mp hy with rfl | hy
          · have := hrange a (List.mem_cons_self _ _)
            omega
          · rw [List.mem_map] at hy
            obtain ⟨j, hj, rfl⟩ := hy
            have := hrange j (List.mem_cons_of_mem _ hj)
            omega)
      simpa using this
    have hremLen : rem.length + (tl.length + 1) = chunks.length := by
      simpa using hlen
    have hi0rem : a.toNat ≤ rem.length := by omega
    have hmem : ∀ r ∈ ((a :: tl).map
          (fun i => chunks.getD i.toNat defaultChunk)).map
            (fun c => c.boundary.references), wfRefsB r = true := by
      intro r hr
      rw [List.map_map, List.mem_map] at hr
      obtain ⟨j, hj, rfl⟩ := hr
      have hjr := hrange j hj
      exact hw _ (getD_mem_of_lt chunks j.toNat defaultChunk (by omega))
    obtain ⟨refs, hrefs⟩ := (exOk_iff _).mp (mergeReferences_ok _ hmem)
    simp only [mergeChunksFn]
    split
    case isTrue hcond =>
      exfalso
      rw [Bool.not_eq_true', List.all_eq_false] at hcond
      obtain ⟨x, hx, hxf⟩ := hcond
      have h2 := hrange x hx
      simp [h2.1, h2.2] at hxf
    case isFalse _ =>
      rw [if_neg (by simp), hrefs]
      simp only [Bind.bind, Except.bind]
      rw [hsd, hrem]
      refine ⟨_, _, rfl, ?_, ?_, ?_, ?_, ?_⟩
      · show ((a :: tl).map
            (fun i => chunks.getD i.toNat defaultChunk)).flatMap
              Chunk.content = _
        rw [List.flatMap_map]
      · show ((((a :: tl).map
            (fun i => chunks.getD i.toNat defaultChunk)).map
              Chunk.sizeVal).sum : Int) = _
        rw [List.map_map]
        rfl
      · rw [pyInsert_eq,
          List.take_append_of_le_length (by simp [List.length_take]; omega),
          List.take_append_of_le_length (by simp [List.length_take]; omega),
          List.take_take, List.headD_cons, min_self]
        refine htake a.toNat ?_
        intro d hd
        rw [List.mem_reverse, List.mem_map] at hd
        obtain ⟨j, hj, rfl⟩ := hd
        have := hmin j hj
        have := (hrange j hj).1
        omega
      · rw [pyInsert_eq, List.append_assoc,
          List.getElem?_append_right (by simp [List.length_take])]
        simp [List.length_take, Nat.min_eq_left hi0rem]
      · rw [pyInsert_eq]
        simp only [List.length_append, List.length_take,
          List.length_singleton, List.length_nil, List.length_drop,
          List.length_cons]
        omega

def c5a : Chunk :=
  ⟨[{ typ := "text", text := some "a b", position := some 0 }],
    ⟨0, 0, .emptyCtx, [], stdRefs [] [] []⟩,
    { chunkId := "c5a", sequenceNum := 0, createdAt := "T" }, some 2⟩

def c5b : Chunk :=
  ⟨[{ typ := "text", text := some "c", position := some 1 }],
    ⟨1, 1, .emptyCtx, [], stdRefs [] [] []⟩,
    { chunkId := "c5b", sequenceNum := 1, createdAt := "T" }, some 1⟩

/-- Witness for C5: the error branch on an empty index list and the merge
of two concrete chunks at indices 0 and 1. -/
theorem merge_chunks_spec_witness :
    mergeChunksFn "T" [c5a, c5b] [] = .error .valueError
      ∧ ∃ merged rest,
          mergeChunksFn "T" [c5a, c5b] [0, 1] = .ok (merged, rest)
            ∧ merged.content = ([0, 1] : List Int).flatMap
                (fun i => ([c5a, c5b].getD i.toNat defaultChunk).content)
            ∧ merged.sizeVal = (([0, 1] : List Int).map
                (fun i => ([c5a, c5b].getD i.toNat defaultChunk).sizeVal)).sum
            ∧ rest.take ((([0, 1] : List Int).headD 0).toNat)
                = [c5a, c5b].take ((([0, 1] : List Int).headD 0).toNat)
            ∧ rest[(([0, 1] : List Int).headD 0).toNat]? = some merged
            ∧ rest.length + ([0, 1] : List Int).length
                = [c5a, c5b].length + 1 := by
  constructor
  · exact (merge_chunks_spec "T" [c5a, c5b] [] (by decide)
      (by decide)).1 (Or.inl rfl)
  · exact (merge_chunks_spec "T" [c5a, c5b] [0, 1] (by decide)
      (by decide)).2 (by decide) (by decide)

/-! ## Claim C4: the reference-resolution pass -/

theorem lookup_cons_ite {β : Type} (a k1 : String) (v1 : β)
    (rest : List (String × β)) :
    List.lookup a ((k1, v1) :: rest)
      = if a = k1 then some v1 else List.lookup a rest := by
  rw [List.lookup_cons]
  by_cases h : a = k1
  · rw [beq_iff_eq.mpr h, if_pos h]
  · rw [beq_eq_false_iff_ne.mpr h, if_neg h]

theorem lookup_map_replace {β : Type} (k : String) (v : β) :
    ∀ (r : List (String × β)) (k2 : String),
      (r.map (fun kv => if kv.1 == k then (k, v) else kv)).lookup k2
        = if k2 = k then (r.lookup k).map (fun _ => v) else r.lookup k2
  | [], k2 => by simp
  | (k1, v1) :: rest, k2 => by
    have ih := lookup_map_replace k v rest k2
    simp only [beq_iff_eq] at ih
    by_cases h1 : k1 = k
    · by_cases h2 : k2 = k
      · simp [List.map_cons, lookup_cons_ite, h1, h2]
      · simp [List.map_cons, lookup_cons_ite, h1, h2, ih]
    · by_cases h2 : k2 = k1
      · have h3 : ¬ k2 = k := fun hx => h1 (h2.symm.trans hx)
        simp [List.map_cons, lookup_cons_ite, beq_iff_eq, h1, h2, h3]
      · simp [List.map_cons, lookup_cons_ite, beq_iff_eq, h1,
          Ne.symm h1, h2, ih]

theorem lookup_append_last {β : Type} (k : String) (v : β) :
    ∀ (r : List (String × β)) (k2 : String), r.lookup k = none →
      (r ++ [(k, v)]).lookup k2
        = if k2 = k then some v else r.lookup k2
  | [], k2, _ => by
    rw [List.nil_append, lookup_cons_ite]
  | (k1, v1) :: rest, k2, hn => by
    have h1k : ¬ k = k1 := by
      intro h1
      rw [lookup_cons_ite, if_pos h1] at hn
      exact Option.noConfusion hn
    have hn2 : rest.lookup k = none := by
      rw [lookup_cons_ite, if_neg h1k] at hn
      exact hn
    have ih := lookup_append_last k v rest k2 hn2
    by_cases h2 : k2 = k1
    · have h3 : ¬ k2 = k := fun hx => h1k (hx.symm.trans h2)
      have h4 : ¬ k1 = k := fun hx => h1k hx.symm
      simp [List.cons_append, lookup_cons_ite, h2, h3, h4]
    · simp [List.cons_append, lookup_cons_ite, h2, ih]

theorem lookup_mem {β : Type} :
    ∀ (r : List (String × β)) (k : String) (v : β),
      r.lookup k = some v → (k, v) ∈ r
  | [], _, _, h => Option.noConfusion h
  | (k1, v1) :: rest, k, v, h => by
    rw [lookup_cons_ite] at h
    by_cases h1 : k = k1
    · rw [if_pos h1, Option.some_inj] at h
      rw [h1, h]
      exact List.mem_cons_self _ _
    · rw [if_neg h1] at h
      exact List.mem_cons_of_mem _ (lookup_mem rest k v h)

theorem pySetNat_lookup (m : List (String × Nat)) (k : String) (v : Nat)
    (k2 : String) :
    (pySetNat m k v).lookup k2 = if k2 = k then some v else m.lookup k2 := by
  rw [pySetNat]
  split
  case isTrue hs =>
    rw [lookup_map_replace]
    obtain ⟨w, hw⟩ := Option.isSome_iff_exists.mp hs
    rw [hw]
    split <;> rfl
  case isFalse hs =>
    exact lookup_append_last k v m k2
      (Option.not_isSome_iff_eq_none.mp hs)

theorem refsSet_lookup (r : Refs) (k : String) (v : List RefVal)
    (k2 : String) :
    (refsSet r k v).lookup k2 = if k2 = k then some v else r.lookup k2 := by
  rw [refsSet]
  split
  case isTrue hs =>
    rw [lookup_map_replace]
    obtain ⟨w, hw⟩ := Option.isSome_iff_exists.mp hs
    rw [hw]
    split <;> rfl
  case isFalse hs =>
    exact lookup_append_last k v r k2
      (Option.not_isSome_iff_eq_none.mp hs)

theorem refsGet_set_same (r : Refs) (k : String) (v : List RefVal) :
    refsGet (refsSet r k v) k = v := by
  rw [refsGet, refsSet_lookup, if_pos rfl]

theorem refsGet_set_other (r : Refs) (k k2 : String) (v : List RefVal)
    (h : k2 ≠ k) : refsGet (refsSet r k v) k2 = refsGet r k2 := by
  rw [refsGet, refsSet_lookup, if_neg h, refsGet]

theorem refsGet_append_same (r : Refs) (k : String) (v : RefVal) :
    refsGet (refsAppend r k v) k = refsGet r k ++ [v] := by
  rw [refsAppend, refsGet_set_same]

theorem refsGet_append_other (r : Refs) (k k2 : String) (v : RefVal)
    (h : k2 ≠ k) : refsGet (refsAppend r k v) k2 = refsGet r k2 := by
  rw [refsAppend, refsGet_set_other _ _ _ _ h]

theorem refsTruthy_refsSet (r : Refs) (k : String) (v : List RefVal) :
    refsTruthy (refsSet r k v) = true := by
  rw [refsSet]
  split
  case isTrue hs =>
    cases r with
    | nil => simp at hs
    | cons kv rest => simp [refsTruthy]
  case isFalse hs => simp [refsTruthy]

theorem refsTruthy_refsAppend (r : Refs) (k : String) (v : RefVal) :
    refsTruthy (refsAppend r k v) = true := by
  rw [refsAppend]
  exact refsTruthy_refsSet r k _

theorem refsTruthy_false_eq_nil (r : Refs) (h : refsTruthy r = false) :
    r = [] := by
  cases r with
  | nil => rfl
  | cons kv rest => simp [refsTruthy] at h

theorem getD_set :
    ∀ (l : List Chunk) (i m : Nat) (c d : Chunk),
      (l.set i c).getD m d
        = if i = m ∧ i < l.length then c else l.getD m d
  | [], i, m, c, d => by
    rw [if_neg (by simp)]
    rfl
  | x :: xs, 0, 0, c, d => by
    rw [if_pos ⟨rfl, by simp⟩]
    rfl
  | x :: xs, 0, m + 1, c, d => by
    rw [if_neg (by simp)]
    rfl
  | x :: xs, i + 1, 0, c, d => by
    rw [if_neg (by simp)]
    rfl
  | x :: xs, i + 1, m + 1, c, d => by
    have ih := getD_set xs i m c d
    show (xs.set i c).getD m d = _
    rw [ih]
    by_cases h : i = m ∧ i < xs.length
    · rw [if_pos h, if_pos ⟨by omega, by simp; omega⟩]
    · rw [if_neg h, if_neg (by simp only [List.length_cons]; omega)]
      rfl

theorem length_set_chunks (l : List Chunk) (i : Nat) (c : Chunk) :
    (l.set i c).length = l.length := List.length_set l i c

theorem enumFrom_char :
    ∀ (l : List Chunk) (n : Nat) (p : Nat × Chunk), p ∈ l.enumFrom n →
      ∃ k, k < l.length ∧ p.1 = n + k ∧ p.2 = l.getD k defaultChunk
  | [], _, _, h => absurd h (List.not_mem_nil _)
  | x :: xs, n, p, h => by
    rw [List.enumFrom] at h
    rcases List.mem_cons.mp h with rfl | h
    · exact ⟨0, by simp, by simp, rfl⟩
    · obtain ⟨k, hk, h1, h2⟩ := enumFrom_char xs (n + 1) p h
      exact ⟨k + 1, by simpa using hk, by omega, h2⟩

theorem enumFrom_mem :
    ∀ (l : List Chunk) (n k : Nat), k < l.length →
      (n + k, l.getD k defaultChunk) ∈ l.enumFrom n
  | [], _, _, h => absurd h (by simp)
  | x :: xs, n, 0, _ => by
    rw [List.enumFrom]
    exact List.mem_cons_self _ _
  | x :: xs, n, k + 1, h => by
    rw [List.enumFrom]
    refine List.mem_cons_of_mem _ ?_
    have := enumFrom_mem xs (n + 1) k (by simpa using h)
    have harith : n + 1 + k = n + (k + 1) := by omega
    rw [harith] at this
    exact this

/-- The outgoing bucket of chunk `k` of a chunk list. -/
def outBucket (l : List Chunk) (k : Nat) : List RefVal :=
  refsGet (l.getD k defaultChunk).boundary.references "outgoing"

/-- The incoming bucket of chunk `k` of a chunk list. -/
def inBucket (l : List Chunk) (k : Nat) : List RefVal :=
  refsGet (l.getD k defaultChunk).boundary.references "incoming"

/-- The non-empty targets of the dictionary members of a bucket — exactly
the keys the first pass of `_update_chunk_references` records. -/
def targetsOf (vals : List RefVal) : List String :=
  vals.filterMap (fun rv =>
    match rv with
    | .dict r =>
      match r.target with
      | some t => if t ≠ "" then some t else none
      | none => none
    | .str _ => none)

/-- The internal reference targets a chunk defines. -/
def internalTargets (c : Chunk) : List String :=
  targetsOf (refsGet c.boundary.references "internal")

/-- The index of the last enumerated chunk defining target `t` (the
last-write-wins semantics of the reference map). -/
def lastIdxWith : List (Nat × Chunk) → String → Option Nat
  | [], _ => none
  | p :: ps, t =>
    match lastIdxWith ps t with
    | some j => some j
    | none => if t ∈ internalTargets p.2 then some p.1 else none

/-- The outgoing bucket the second pass writes back for chunk `i`,
as a function of the reference map and the original bucket. -/
def newOut (rm : List (String × Nat)) (i : Nat) (vals : List RefVal) :
    List RefVal :=
  vals.filterMap (fun rv =>
    match rv with
    | .dict r =>
      match r.target with
      | some t =>
        match rm.lookup t with
        | some j =>
          if j == i then none
          else some (.dict { r with resolvesToChunk := some j })
        | none => some (.dict r)
      | none => some (.dict r)
    | .str _ => none)

theorem wfRefsB_bucket (r : Refs) (hw : wfRefsB r = true) (k : String)
    (v : RefVal) (hv : v ∈ refsGet r k) : isDictVal v = true := by
  rw [refsGet] at hv
  cases hlk : r.lookup k with
  | none =>
    rw [hlk] at hv
    exact absurd hv (List.not_mem_nil v)
  | some w =>
    rw [hlk] at hv
    have hmem := lookup_mem r k w hlk
    rw [wfRefsB] at hw
    have hkw := List.all_eq_true.mp hw (k, w) hmem
    rw [Bool.and_eq_true] at hkw
    exact List.all_eq_true.mp hkw.2 v hv

theorem targetsOf_cons_none (r : RefDict) (vs : List RefVal)
    (ht : r.target = none) : targetsOf (.dict r :: vs) = targetsOf vs := by
  rw [targetsOf, targetsOf, List.filterMap_cons]
  simp [ht]

theorem targetsOf_cons_empty (r : RefDict) (vs : List RefVal) (t : String)
    (ht : r.target = some t) (ht0 : t = "") :
    targetsOf (.dict r :: vs) = targetsOf vs := by
  rw [targetsOf, targetsOf, List.filterMap_cons]
  simp [ht, ht0]

theorem targetsOf_cons_some (r : RefDict) (vs : List RefVal) (t : String)
    (ht : r.target = some t) (ht0 : ¬ t = "") :
    targetsOf (.dict r :: vs) = t :: targetsOf vs := by
  rw [targetsOf, targetsOf, List.filterMap_cons]
  simp [ht, ht0]

theorem brmInner_fold_spec (idx : Nat) :
    ∀ (vals : List RefVal) (rm : List (String × Nat)),
      (∀ v ∈ vals, isDictVal v = true) →
      ∃ rm1, vals.foldlM (brmInner idx) rm = .ok rm1
        ∧ ∀ t2, rm1.lookup t2
            = if t2 ∈ targetsOf vals then some idx else rm.lookup t2
  | [], rm, _ =>
    ⟨rm, rfl, fun t2 => by simp [targetsOf]⟩
  | v :: vs, rm, hd => by
    have htl : ∀ w ∈ vs, isDictVal w = true :=
      fun w hw2 => hd w (List.mem_cons_of_mem _ hw2)
    cases v with
    | str s =>
      exact absurd (hd _ (List.mem_cons_self _ _)) (by simp [isDictVal])
    | dict r =>
      rw [List.foldlM_cons]
      cases ht : r.target with
      | none =>
        obtain ⟨rm1, h1, h2⟩ := brmInner_fold_spec idx vs rm htl
        refine ⟨rm1, ?_, ?_⟩
        · simp only [brmInner, ht]
          rw [pure_bind]
          exact h1
        · intro t2
          rw [h2 t2, targetsOf_cons_none r vs ht]
      | some t =>
        by_cases ht0 : t = ""
        · obtain ⟨rm1, h1, h2⟩ := brmInner_fold_spec idx vs rm htl
          refine ⟨rm1, ?_, ?_⟩
          · simp only [brmInner, ht]
            rw [if_neg (by simp [ht0]), pure_bind]
            exact h1
          · intro t2
            rw [h2 t2, targetsOf_cons_empty r vs t ht ht0]
        · obtain ⟨rm1, h1, h2⟩ :=
            brmInner_fold_spec idx vs (pySetNat rm t idx) htl
          refine ⟨rm1, ?_, ?_⟩
          · simp only [brmInner, ht]
            rw [if_pos ht0, pure_bind]
            exact h1
          · intro t2
            rw [h2 t2, pySetNat_lookup, targetsOf_cons_some r vs t ht ht0]
            by_cases hmem : t2 ∈ targetsOf vs
            · rw [if_pos hmem, if_pos (List.mem_cons_of_mem _ hmem)]
            · rw [if_neg hmem]
              by_cases ht2 : t2 = t
              · rw [if_pos ht2,
                  if_pos (by rw [ht2]; exact List.mem_cons_self _ _)]
              · rw [if_neg ht2, if_neg (by
                  intro hx
                  rcases List.mem_cons.mp hx with h | h
                  · exact ht2 h
                  · exact hmem h)]

theorem brmStep_spec (rm : List (String × Nat)) (p : Nat × Chunk)
    (hw : wfRefsB p.2.boundary.references = true) :
    ∃ rm1, brmStep rm p = .ok rm1
      ∧ ∀ t2, rm1.lookup t2
          = if t2 ∈ internalTargets p.2 then some p.1 else rm.lookup t2 := by
  cases htr : refsTruthy p.2.boundary.references with
  | false =>
    have hnil := refsTruthy_false_eq_nil _ htr
    refine ⟨rm, by simp [brmStep, htr]; rfl, ?_⟩
    intro t2
    rw [if_neg (by simp [internalTargets, hnil, targetsOf, refsGet])]
  | true =>
    obtain ⟨rm1, h1, h2⟩ := brmInner_fold_spec p.1
      (refsGet p.2.boundary.references "internal") rm
      (fun v hv => wfRefsB_bucket _ hw _ v hv)
    refine ⟨rm1, ?_, h2⟩
    simp only [brmStep, htr, Bool.not_true]
    simpa using h1

theorem brm_fold_spec :
    ∀ (pairs : List (Nat × Chunk)) (rm0 : List (String × Nat)),
      (∀ p ∈ pairs, wfRefsB p.2.boundary.references = true) →
      ∃ rm, pairs.foldlM brmStep rm0 = .ok rm
        ∧ ∀ t2, rm.lookup t2
            = match lastIdxWith pairs t2 with
              | some j => some j
              | none => rm0.lookup t2
  | [], rm0, _ => ⟨rm0, rfl, fun t2 => by rw [lastIdxWith]⟩
  | p :: ps, rm0, hwp => by
    obtain ⟨rm1, h1, h2⟩ := brmStep_spec rm0 p
      (hwp p (List.mem_cons_self _ _))
    obtain ⟨rm, hf, hl⟩ := brm_fold_spec ps rm1
      (fun q hq => hwp q (List.mem_cons_of_mem _ hq))
    refine ⟨rm, ?_, ?_⟩
    · rw [List.foldlM_cons, h1]
      simp only [Bind.bind, Except.bind]
      exact hf
    · intro t2
      rw [hl t2, lastIdxWith]
      cases lastIdxWith ps t2 with
      | some j => rfl
      | none =>
        rw [h2 t2]
        by_cases hmem : t2 ∈ internalTargets p.2
        · rw [if_pos hmem, if_pos hmem]
        · rw [if_neg hmem, if_neg hmem]

theorem lastIdxWith_sound :
    ∀ (pairs : List (Nat × Chunk)) (t : String) (j : Nat),
      lastIdxWith pairs t = some j →
      ∃ p ∈ pairs, p.1 = j ∧ t ∈ internalTargets p.2
  | [], _, _, h => Option.noConfusion h
  | p :: ps, t, j, h => by
    rw [lastIdxWith] at h
    cases hps : lastIdxWith ps t with
    | some j2 =>
      rw [hps, Option.some_inj] at h
      subst h
      obtain ⟨q, hq, h1, h2⟩ := lastIdxWith_sound ps t j2 hps
      exact ⟨q, List.mem_cons_of_mem _ hq, h1, h2⟩
    | none =>
      rw [hps] at h
      by_cases hmem : t ∈ internalTargets p.2
      · rw [if_pos hmem, Option.some_inj] at h
        exact ⟨p, List.mem_cons_self _ _, h, hmem⟩
      · rw [if_neg hmem] at h
        exact Option.noConfusion h

theorem lastIdxWith_isSome :
    ∀ (pairs : List (Nat × Chunk)) (t : String) (p : Nat × Chunk),
      p ∈ pairs → t ∈ internalTargets p.2 →
      (lastIdxWith pairs t).isSome = true
  | [], _, p, hp, _ => absurd hp (List.not_mem_nil p)
  | q :: ps, t, p, hp, hmem => by
    rw [lastIdxWith]
    cases hps : lastIdxWith ps t with
    | some j => rfl
    | none =>
      rcases List.mem_cons.mp hp with rfl | hp2
      · rw [if_pos hmem]
        rfl
      · have := lastIdxWith_isSome ps t p hp2 hmem
        rw [hps] at this
        exact absurd this (by simp)

theorem lastIdxWith_unique (pairs : List (Nat × Chunk)) (t : String)
    (j : Nat) (hex : ∃ p ∈ pairs, p.1 = j ∧ t ∈ internalTargets p.2)
    (huniq : ∀ p ∈ pairs, t ∈ internalTargets p.2 → p.1 = j) :
    lastIdxWith pairs t = some j := by
  obtain ⟨p, hp, hpj, hpt⟩ := hex
  cases h : lastIdxWith pairs t with
  | none =>
    have := lastIdxWith_isSome pairs t p hp hpt
    rw [h] at this
    exact absurd this (by simp)
  | some j2 =>
    obtain ⟨q, hq, hqj, hqt⟩ := lastIdxWith_sound pairs t j2 h
    rw [← hqj, huniq q hq hqt]

theorem outBucket_appendBucketAt (l : List Chunk) (j : Nat) (k : String)
    (v : RefVal) (hk : k ≠ "outgoing") (m : Nat) :
    outBucket (appendBucketAt l j k v) m = outBucket l m := by
  simp only [appendBucketAt, updChunkAt, outBucket, getD_set]
  split
  case isTrue h =>
    obtain ⟨h1, h2⟩ := h
    subst h1
    exact refsGet_append_other _ _ _ _ (Ne.symm hk)
  case isFalse h => rfl

theorem inBucket_appendBucketAt_mono (l : List Chunk) (j : Nat)
    (k : String) (v : RefVal) (m : Nat) (v0 : RefVal)
    (h : v0 ∈ inBucket l m) : v0 ∈ inBucket (appendBucketAt l j k v) m := by
  simp only [appendBucketAt, updChunkAt, inBucket, getD_set]
  split
  case isTrue hc =>
    obtain ⟨h1, h2⟩ := hc
    by_cases hk : k = "incoming"
    · subst hk
      rw [refsGet_append_same]
      rw [inBucket] at h
      rw [← h1] at h
      exact List.mem_append_left _ h
    · rw [refsGet_append_other _ _ _ _ (fun hx => hk hx.symm)]
      rw [inBucket] at h
      rw [← h1] at h
      exact h
  case isFalse hc =>
    rw [inBucket] at h
    exact h

theorem inBucket_appendBucketAt_incoming (l : List Chunk) (j : Nat)
    (v : RefVal) (hj : j < l.length) :
    inBucket (appendBucketAt l j "incoming" v) j = inBucket l j ++ [v] := by
  rw [inBucket, appendBucketAt, updChunkAt, getD_set, if_pos ⟨rfl, hj⟩]
  exact refsGet_append_same _ _ _

theorem truthy_appendBucketAt (l : List Chunk) (j : Nat) (k : String)
    (v : RefVal) (m : Nat)
    (h : refsTruthy ((l.getD m defaultChunk).boundary.references) = true) :
    refsTruthy (((appendBucketAt l j k v).getD m
      defaultChunk).boundary.references) = true := by
  simp only [appendBucketAt, updChunkAt, getD_set]
  split
  case isTrue hc => exact refsTruthy_refsAppend _ _ _
  case isFalse hc => exact h

theorem outBucket_setBucketAt_other (l : List Chunk) (i : Nat)
    (vals : List RefVal) (m : Nat) (h : m ≠ i) :
    outBucket (setBucketAt l i "outgoing" vals) m = outBucket l m := by
  simp only [setBucketAt, updChunkAt, outBucket, getD_set]
  rw [if_neg (fun hc => h hc.1.symm)]

theorem outBucket_setBucketAt_self (l : List Chunk) (i : Nat)
    (vals : List RefVal) (hi : i < l.length) :
    outBucket (setBucketAt l i "outgoing" vals) i = vals := by
  rw [outBucket, setBucketAt, updChunkAt, getD_set, if_pos ⟨rfl, hi⟩]
  exact refsGet_set_same _ _ _

theorem inBucket_setBucketAt_outgoing (l : List Chunk) (i : Nat)
    (vals : List RefVal) (m : Nat) :
    inBucket (setBucketAt l i "outgoing" vals) m = inBucket l m := by
  simp only [setBucketAt, updChunkAt, inBucket, getD_set]
  split
  case isTrue hc =>
    obtain ⟨h1, h2⟩ := hc
    rw [refsGet_set_other _ _ _ _ (by decide), ← h1]
  case isFalse hc => rfl

theorem truthy_setBucketAt (l : List Chunk) (i : Nat) (k : String)
    (vals : List RefVal) (m : Nat)
    (h : refsTruthy ((l.getD m defaultChunk).boundary.references) = true) :
    refsTruthy (((setBucketAt l i k vals).getD m
      defaultChunk).boundary.references) = true := by
  simp only [setBucketAt, updChunkAt, getD_set]
  split
  case isTrue hc => exact refsTruthy_refsSet _ _ _
  case isFalse hc => exact h

theorem length_appendBucketAt (l : List Chunk) (j : Nat) (k : String)
    (v : RefVal) : (appendBucketAt l j k v).length = l.length := by
  simp only [appendBucketAt, updChunkAt, List.length_set]

theorem length_setBucketAt (l : List Chunk) (i : Nat) (k : String)
    (vals : List RefVal) : (setBucketAt l i k vals).length = l.length := by
  simp only [setBucketAt, updChunkAt, List.length_set]

theorem newOut_cons_tnone (rm : List (String × Nat)) (i : Nat)
    (r : RefDict) (vs : List RefVal) (ht : r.target = none) :
    newOut rm i (.dict r :: vs) = .dict r :: newOut rm i vs := by
  rw [newOut, newOut, List.filterMap_cons]
  simp [ht]

theorem newOut_cons_lnone (rm : List (String × Nat)) (i : Nat)
    (r : RefDict) (vs : List RefVal) (t : String) (ht : r.target = some t)
    (hlk : rm.lookup t = none) :
    newOut rm i (.dict r :: vs) = .dict r :: newOut rm i vs := by
  rw [newOut, newOut, List.filterMap_cons]
  simp [ht, hlk]

theorem newOut_cons_self (rm : List (String × Nat)) (i : Nat)
    (r : RefDict) (vs : List RefVal) (t : String) (ht : r.target = some t)
    (hlk : rm.lookup t = some i) :
    newOut rm i (.dict r :: vs) = newOut rm i vs := by
  rw [newOut, newOut, List.filterMap_cons]
  simp [ht, hlk]

theorem newOut_cons_cross (rm : List (String × Nat)) (i : Nat)
    (r : RefDict) (vs : List RefVal) (t : String) (j : Nat)
    (ht : r.target = some t) (hlk : rm.lookup t = some j) (hj : j ≠ i) :
    newOut rm i (.dict r :: vs)
      = .dict { r with resolvesToChunk := some j } :: newOut rm i vs := by
  rw [newOut, newOut, List.filterMap_cons]
  simp [ht, hlk, hj]

theorem uStep_fold_spec (rm : List (String × Nat)) (i : Nat) :
    ∀ (vals : List RefVal) (st : List RefVal × List Chunk),
      (∀ v ∈ vals, isDictVal v = true) →
      ∃ st2, vals.foldlM (uStep rm i) st = .ok st2
        ∧ st2.1 = st.1 ++ newOut rm i vals
        ∧ st2.2.length = st.2.length
        ∧ (∀ m, outBucket st2.2 m = outBucket st.2 m)
        ∧ (∀ m v0, v0 ∈ inBucket st.2 m → v0 ∈ inBucket st2.2 m)
        ∧ (∀ m, refsTruthy ((st.2.getD m defaultChunk).boundary.references)
              = true →
            refsTruthy ((st2.2.getD m defaultChunk).boundary.references)
              = true)
        ∧ (∀ (r : RefDict) (t : String) (j : Nat),
            RefVal.dict r ∈ vals → r.target = some t →
            rm.lookup t = some j → j ≠ i → j < st.2.length →
            RefVal.dict (mirrorRef i r) ∈ inBucket st2.2 j)
  | [], st, _ =>
    ⟨st, rfl, by simp [newOut], rfl, fun _ => rfl, fun _ _ h => h,
      fun _ h => h,
      fun r t j hmem _ _ _ _ => absurd hmem (List.not_mem_nil _)⟩
  | v :: vs, st, hd => by
    have htl : ∀ w ∈ vs, isDictVal w = true :=
      fun w hw2 => hd w (List.mem_cons_of_mem _ hw2)
    cases v with
    | str s =>
      exact absurd (hd _ (List.mem_cons_self _ _)) (by simp [isDictVal])
    | dict r =>
      rw [List.foldlM_cons]
      cases ht : r.target with
      | none =>
        obtain ⟨st2, h1, h2, h3, h4, h5, h6, h7⟩ :=
          uStep_fold_spec rm i vs (st.1 ++ [.dict r], st.2) htl
        refine ⟨st2, ?_, ?_, h3, h4, h5, h6, ?_⟩
        · simp only [uStep, ht]
          rw [pure_bind]
          exact h1
        · rw [h2, newOut_cons_tnone rm i r vs ht, List.append_assoc]
          rfl
        · intro r2 t2 j2 hmem ht2 hlk2 hj2 hlen
          rcases List.mem_cons.mp hmem with heq | hmem2
          · rw [RefVal.dict.injEq] at heq
            rw [heq, ht] at ht2
            exact absurd ht2 (by simp)
          · exact h7 r2 t2 j2 hmem2 ht2 hlk2 hj2 hlen
      | some t =>
        cases hlk : rm.lookup t with
        | none =>
          obtain ⟨st2, h1, h2, h3, h4, h5, h6, h7⟩ :=
            uStep_fold_spec rm i vs (st.1 ++ [.dict r], st.2) htl
          refine ⟨st2, ?_, ?_, h3, h4, h5, h6, ?_⟩
          · simp only [uStep, ht, hlk]
            rw [pure_bind]
            exact h1
          · rw [h2, newOut_cons_lnone rm i r vs t ht hlk,
              List.append_assoc]
            rfl
          · intro r2 t2 j2 hmem ht2 hlk2 hj2 hlen
            rcases List.mem_cons.mp hmem with heq | hmem2
            · rw [RefVal.dict.injEq] at heq
              subst heq
              rw [ht, Option.some_inj] at ht2
              subst ht2
              rw [hlk] at hlk2
              exact Option.noConfusion hlk2
            · exact h7 r2 t2 j2 hmem2 ht2 hlk2 hj2 hlen
        | some j =>
          by_cases hj : j = i
          · obtain ⟨st2, h1, h2, h3, h4, h5, h6, h7⟩ :=
              uStep_fold_spec rm i vs
                (st.1, appendBucketAt st.2 i "internal" (.dict r)) htl
            have hlki : rm.lookup t = some i := by rw [hlk, hj]
            refine ⟨st2, ?_, ?_, ?_, ?_, ?_, ?_, ?_⟩
            · simp only [uStep, ht, hlk]
              rw [if_pos (by simpa using hj), pure_bind]
              exact h1
            · rw [h2, newOut_cons_self rm i r vs t ht hlki]
            · rw [h3, length_appendBucketAt]
            · intro m
              rw [h4 m, outBucket_appendBucketAt _ _ _ _ (by decide) m]
            · intro m v0 hv0
              exact h5 m v0 (inBucket_appendBucketAt_mono _ _ _ _ m v0 hv0)
            · intro m hm
              exact h6 m (truthy_appendBucketAt _ _ _ _ m hm)
            · intro r2 t2 j2 hmem ht2 hlk2 hj2 hlen
              rcases List.mem_cons.mp hmem with heq | hmem2
              · rw [RefVal.dict.injEq] at heq
                subst heq
                rw [ht, Option.some_inj] at ht2
                subst ht2
                rw [hlk, Option.some_inj] at hlk2
                subst hlk2
                exact absurd hj hj2
              · exact h7 r2 t2 j2 hmem2 ht2 hlk2 hj2
                  (by rw [length_appendBucketAt]; exact hlen)
          · obtain ⟨st2, h1, h2, h3, h4, h5, h6, h7⟩ :=
              uStep_fold_spec rm i vs
                (st.1 ++ [.dict { r with resolvesToChunk := some j }],
                  appendBucketAt st.2 j "incoming"
                    (.dict (mirrorRef i r))) htl
            refine ⟨st2, ?_, ?_, ?_, ?_, ?_, ?_, ?_⟩
            · simp only [uStep, ht, hlk]
              rw [if_neg (by simpa using hj), ← ht, pure_bind]
              exact h1
            · rw [h2, newOut_cons_cross rm i r vs t j ht hlk hj,
                List.append_assoc]
              rfl
            · rw [h3, length_appendBucketAt]
            · intro m
              rw [h4 m, outBucket_appendBucketAt _ _ _ _ (by decide) m]
            · intro m v0 hv0
              exact h5 m v0 (inBucket_appendBucketAt_mono _ _ _ _ m v0 hv0)
            · intro m hm
              exact h6 m (truthy_appendBucketAt _ _ _ _ m hm)
            · intro r2 t2 j2 hmem ht2 hlk2 hj2 hlen
              rcases List.mem_cons.mp hmem with heq | hmem2
              · rw [RefVal.dict.injEq] at heq
                subst heq
                rw [ht, Option.some_inj] at ht2
                subst ht2
                rw [hlk, Option.some_inj] at hlk2
                subst hlk2
                refine h5 j _ ?_
                rw [inBucket_appendBucketAt_incoming st.2 j _ hlen]
                exact List.mem_append_right _ (List.mem_singleton.mpr rfl)
              · exact h7 r2 t2 j2 hmem2 ht2 hlk2 hj2
                  (by rw [length_appendBucketAt]; exact hlen)

theorem updRefsStep_spec (rm : List (String × Nat)) (cur : List Chunk)
    (k : Nat) (hout : ∀ v ∈ outBucket cur k, isDictVal v = true) :
    ∃ cur2, updRefsStep rm cur k = .ok cur2
      ∧ cur2.length = cur.length
      ∧ (∀ m, m ≠ k → outBucket cur2 m = outBucket cur m)
      ∧ (∀ m v0, v0 ∈ inBucket cur m → v0 ∈ inBucket cur2 m)
      ∧ (∀ m, refsTruthy ((cur.getD m defaultChunk).boundary.references)
            = true →
          refsTruthy ((cur2.getD m defaultChunk).boundary.references)
            = true)
      ∧ (k < cur.length →
          refsTruthy ((cur.getD k defaultChunk).boundary.references)
            = true →
          outBucket cur2 k = newOut rm k (outBucket cur k)
            ∧ ∀ (r : RefDict) (t : String) (j : Nat),
                RefVal.dict r ∈ outBucket cur k → r.target = some t →
                rm.lookup t = some j → j ≠ k → j < cur.length →
                RefVal.dict (mirrorRef k r) ∈ inBucket cur2 j) := by
  cases htr : refsTruthy ((cur.getD k defaultChunk).boundary.references)
    with
  | false =>
    refine ⟨cur, ?_, rfl, fun _ _ => rfl, fun _ _ h => h, fun _ h => h, ?_⟩
    · simp only [updRefsStep, htr]
      rfl
    · intro _ htr2
      exact absurd htr2 (by simp)
  | true =>
    obtain ⟨st2, h1, h2, h3, h4, h5, h6, h7⟩ :=
      uStep_fold_spec rm k (outBucket cur k) ([], cur) hout
    rw [outBucket] at h1
    refine ⟨setBucketAt st2.2 k "outgoing" st2.1, ?_, ?_, ?_, ?_, ?_, ?_⟩
    · simp only [updRefsStep, htr]
      rw [if_neg (by simp), h1]
      simp only [Bind.bind, Except.bind]
      rfl
    · rw [length_setBucketAt, h3]
    · intro m hm
      rw [outBucket_setBucketAt_other _ _ _ m hm, h4 m]
    · intro m v0 hv0
      rw [inBucket_setBucketAt_outgoing]
      exact h5 m v0 hv0
    · intro m hm
      exact truthy_setBucketAt _ _ _ _ m (h6 m hm)
    · intro hk htru
      constructor
      · rw [outBucket_setBucketAt_self st2.2 k st2.1 (by rw [h3]; exact hk),
          h2]
        exact List.nil_append _
      · intro r t j hmem ht hlk hj hjlen
        rw [inBucket_setBucketAt_outgoing]
        exact h7 r t j hmem ht hlk hj hjlen

theorem updFold_spec (rm : List (String × Nat)) :
    ∀ (ks : List Nat) (cur : List Chunk), ks.Nodup →
      (∀ k ∈ ks, ∀ v ∈ outBucket cur k, isDictVal v = true) →
      ∃ cur2, ks.foldlM (updRefsStep rm) cur = .ok cur2
        ∧ cur2.length = cur.length
        ∧ (∀ m, m ∉ ks → outBucket cur2 m = outBucket cur m)
        ∧ (∀ m v0, v0 ∈ inBucket cur m → v0 ∈ inBucket cur2 m)
        ∧ (∀ m, refsTruthy ((cur.getD m defaultChunk).boundary.references)
              = true →
            refsTruthy ((cur2.getD m defaultChunk).boundary.references)
              = true)
        ∧ (∀ k ∈ ks, k < cur.length →
            refsTruthy ((cur.getD k defaultChunk).boundary.references)
              = true →
            outBucket cur2 k = newOut rm k (outBucket cur k)
              ∧ ∀ (r : RefDict) (t : String) (j : Nat),
                  RefVal.dict r ∈ outBucket cur k → r.target = some t →
                  rm.lookup t = some j → j ≠ k → j < cur.length →
                  RefVal.dict (mirrorRef k r) ∈ inBucket cur2 j)
  | [], cur, _, _ =>
    ⟨cur, rfl, rfl, fun _ _ => rfl, fun _ _ h => h, fun _ h => h,
      fun k hk => absurd hk (List.not_mem_nil k)⟩
  | k0 :: ks, cur, hnd, hout => by
    have hnd2 := List.nodup_cons.mp hnd
    obtain ⟨cur1, s1, s2, s3, s4, s5, s6⟩ :=
      updRefsStep_spec rm cur k0 (hout k0 (List.mem_cons_self _ _))
    obtain ⟨cur2, f1, f2, f3, f4, f5, f6⟩ :=
      updFold_spec rm ks cur1 hnd2.2
        (by
          intro k2 hk2 v hv
          have hne : k2 ≠ k0 := fun hx => hnd2.1 (hx ▸ hk2)
          rw [s3 k2 hne] at hv
          exact hout k2 (List.mem_cons_of_mem _ hk2) v hv)
    refine ⟨cur2, ?_, ?_, ?_, ?_, ?_, ?_⟩
    · rw [List.foldlM_cons, s1]
      simp only [Bind.bind, Except.bind]
      exact f1
    · rw [f2, s2]
    · intro m hm
      have hm1 : m ∉ ks := fun hx => hm (List.mem_cons_of_mem _ hx)
      have hm0 : m ≠ k0 := fun hx => hm (hx ▸ List.mem_cons_self _ _)
      rw [f3 m hm1, s3 m hm0]
    · intro m v0 hv0
      exact f4 m v0 (s4 m v0 hv0)
    · intro m hm
      exact f5 m (s5 m hm)
    · intro k hk hklen hktr
      rcases List.mem_cons.mp hk with rfl | hk2
      · obtain ⟨o1, o2⟩ := s6 hklen hktr
        constructor
        · rw [f3 k hnd2.1, o1]
        · intro r t j hmem ht hlk hj hjlen
          exact f4 j _ (o2 r t j hmem ht hlk hj hjlen)
      · have hkne : k ≠ k0 := fun hx => hnd2.1 (hx ▸ hk2)
        obtain ⟨o1, o2⟩ := f6 k hk2 (by rw [s2]; exact hklen)
          (s5 k hktr)
        constructor
        · rw [o1, s3 k hkne]
        · intro r t j hmem ht hlk hj hjlen
          refine o2 r t j ?_ ht hlk hj (by rw [s2]; exact hjlen)
          rw [s3 k hkne]
          exact hmem

/-- C4: after `_update_chunk_references` on standard-shaped chunks, an
outgoing reference of chunk `i` whose non-empty target is defined
internally by exactly the distinct chunk `j` is annotated with
`resolves_to_chunk = j` in chunk `i`, a mirrored `{from_chunk = i, type,
target, position}` entry lands in chunk `j`'s incoming bucket, and
outgoing references whose targets resolve nowhere stay in chunk `i`'s
outgoing bucket unchanged. -/
theorem update_references_resolution (chunks : List Chunk)
    (hw : ∀ c ∈ chunks, wfRefsB c.boundary.references = true)
    (i j : Nat) (r : RefDict) (t : String)
    (hi : i < chunks.length) (hj : j < chunks.length) (hij : j ≠ i)
    (hr : RefVal.dict r ∈ outBucket chunks i)
    (ht : r.target = some t)
    (hjt : t ∈ internalTargets (chunks.getD j defaultChunk))
    (huniq : ∀ k, k < chunks.length →
        t ∈ internalTargets (chunks.getD k defaultChunk) → k = j) :
    ∃ chunks2, updateChunkReferences chunks = .ok chunks2
      ∧ chunks2.length = chunks.length
      ∧ RefVal.dict { r with resolvesToChunk := some j }
          ∈ outBucket chunks2 i
      ∧ RefVal.dict (mirrorRef i r) ∈ inBucket chunks2 j
      ∧ ∀ (r2 : RefDict), RefVal.dict r2 ∈ outBucket chunks i →
          (r2.target = none
            ∨ ∃ t2, r2.target = some t2
                ∧ ∀ k, k < chunks.length →
                    t2 ∉ internalTargets (chunks.getD k defaultChunk)) →
          RefVal.dict r2 ∈ outBucket chunks2 i := by
  obtain ⟨rm, hbrm, hlku⟩ := brm_fold_spec chunks.enum []
    (by
      intro p hp
      obtain ⟨kk, hkk, _, hp2⟩ := enumFrom_char chunks 0 p hp
      rw [hp2]
      exact hw _ (getD_mem_of_lt chunks kk defaultChunk hkk))
  have hex : ∃ p ∈ chunks.enum, p.1 = j
      ∧ t ∈ internalTargets p.2 := by
    refine ⟨(j, chunks.getD j defaultChunk), ?_, rfl, hjt⟩
    have := enumFrom_mem chunks 0 j hj
    simpa using this
  have huq : ∀ p ∈ chunks.enum, t ∈ internalTargets p.2 → p.1 = j := by
    intro p hp hpt
    obtain ⟨kk, hkk, hp1, hp2⟩ := enumFrom_char chunks 0 p hp
    rw [hp1, Nat.zero_add]
    exact huniq kk hkk (by rw [← hp2]; exact hpt)
  have hrm_t : rm.lookup t = some j := by
    rw [hlku t, lastIdxWith_unique chunks.enum t j hex huq]
  have hrm_none : ∀ t2, (∀ kk, kk < chunks.length →
      t2 ∉ internalTargets (chunks.getD kk defaultChunk)) →
      rm.lookup t2 = none := by
    intro t2 hnone
    rw [hlku t2]
    cases hli : lastIdxWith chunks.enum t2 with
    | some j2 =>
      obtain ⟨p, hp, hp1, hp2⟩ := lastIdxWith_sound chunks.enum t2 j2 hli
      obtain ⟨kk, hkk, hq1, hq2⟩ := enumFrom_char chunks 0 p hp
      exact absurd (by rw [← hq2]; exact hp2) (hnone kk hkk)
    | none => rfl
  obtain ⟨chunks2, hfold, hlen2, hother, hinmono, htruthy2, hmain⟩ :=
    updFold_spec rm (List.range chunks.length) chunks
      (List.nodup_range _)
      (by
        intro k hk v hv
        have hklen := List.mem_range.mp hk
        exact wfRefsB_bucket _
          (hw _ (getD_mem_of_lt chunks k defaultChunk hklen)) _ v hv)
  have htr_i : refsTruthy
      ((chunks.getD i defaultChunk).boundary.references) = true := by
    by_cases h0 : (chunks.getD i defaultChunk).boundary.references = []
    · exfalso
      rw [outBucket, h0] at hr
      exact absurd hr (by simp [refsGet])
    · cases hE : ((chunks.getD i defaultChunk).boundary.references).isEmpty
        with
      | true => exact absurd (List.isEmpty_iff.mp hE) h0
      | false => rw [refsTruthy, hE]; rfl
  obtain ⟨houti, hmirror⟩ := hmain i (List.mem_range.mpr hi) hi htr_i
  have hbrm2 : buildRefMap chunks = .ok rm := hbrm
  refine ⟨chunks2, ?_, hlen2, ?_, ?_, ?_⟩
  · simp only [updateChunkReferences]
    rw [hbrm2]
    simp only [Bind.bind, Except.bind]
    exact hfold
  · rw [houti]
    refine List.mem_filterMap.mpr ⟨.dict r, hr, ?_⟩
    simp [ht, hrm_t, hij]
  · exact hmirror r t j hr ht hrm_t hij hj
  · intro r2 hr2 hcase
    rw [houti]
    refine List.mem_filterMap.mpr ⟨.dict r2, hr2, ?_⟩
    rcases hcase with ht2 | ⟨t2, ht2, hnone⟩
    · simp [ht2]
    · have hn2 := hrm_none t2 hnone
      simp [ht2, hn2]

/-- A two-chunk instance for C4: chunk 0 carries an outgoing citation to
`sec2`, which chunk 1 defines internally. -/
def c4r : RefDict :=
  { id := some "r1", target := some "sec2", typ := some "citation",
    position := some 3 }

def c4a : Chunk :=
  ⟨[{ typ := "text", text := some "a", position := some 0 }],
    ⟨0, 0, .emptyCtx, [], stdRefs [] [] [.dict c4r]⟩,
    { chunkId := "c4a", sequenceNum := 0, createdAt := "T" }, none⟩

def c4b : Chunk :=
  ⟨[{ typ := "text", text := some "b", position := some 1 }],
    ⟨1, 1, .emptyCtx, [],
      stdRefs [.dict { target := some "sec2" }] [] []⟩,
    { chunkId := "c4b", sequenceNum := 1, createdAt := "T" }, none⟩

/-- Witness for C4 at the two-chunk instance. -/
theorem update_references_resolution_witness :
    ∃ chunks2, updateChunkReferences [c4a, c4b] = .ok chunks2
      ∧ chunks2.length = [c4a, c4b].length
      ∧ RefVal.dict { c4r with resolvesToChunk := some 1 }
          ∈ outBucket chunks2 0
      ∧ RefVal.dict (mirrorRef 0 c4r) ∈ inBucket chunks2 1
      ∧ ∀ (r2 : RefDict), RefVal.dict r2 ∈ outBucket [c4a, c4b] 0 →
          (r2.target = none
            ∨ ∃ t2, r2.target = some t2
                ∧ ∀ k, k < [c4a, c4b].length →
                    t2 ∉ internalTargets ([c4a, c4b].getD k defaultChunk)) →
          RefVal.dict r2 ∈ outBucket chunks2 0 :=
  update_references_resolution [c4a, c4b] (by decide) 0 1 c4r "sec2"
    (by decide) (by decide) (by decide) (by decide) (by decide)
    (by decide) (by decide)

end ChunkingSpec
